import Mathlib

/-!
Verification of `make_building_relations.py`, an OSM building-part
consolidation tool.

The Python classes `Node`/`Nodes`, `Way`/`Ways`, `Relation`/`Relations` and
`MakeBuildingRelations` are embedded as Lean structures and pure functions.
Python dictionaries become ordered association lists (insertion order, first
match on lookup, in-place replacement on re-assignment, exactly the observable
dict semantics the program relies on).  OSM identifiers (decimal number
strings in the source) are modelled as integers; coordinates, which the source
compares through `float(...)` equality, are modelled as exact rationals.
Object references held by buckets and relation member lists become identifier
references resolved through the owning collection, which reproduces the
aliasing of the Python object graph.  The external Shapely capabilities
(`Polygon`, `cascaded_union`, `polygonize`) are modelled by an explicit
polygon type and by function parameters `union` / `assembleRings`; the one
piece of library behaviour the code observes, implicit closure of a ring whose
first and last coordinates differ, is modelled by `closeRing`.
-/

/-- Association-list lookup: value of the first entry with the given key
(python `d[k]` when present, `None` view otherwise). -/
def assocGet {κ α : Type} [DecidableEq κ] : List (κ × α) → κ → Option α
  | [], _ => none
  | p :: l, k => if p.1 = k then some p.2 else assocGet l k

/-- Association-list update: python `d[k] = v` — replace every entry carrying
the key in place, append a fresh entry otherwise. -/
def assocSet {κ α : Type} [DecidableEq κ] (l : List (κ × α)) (k : κ) (v : α) :
    List (κ × α) :=
  if (assocGet l k).isSome then
    l.map (fun p => if p.1 = k then (k, v) else p)
  else l ++ [(k, v)]

/-- In-place modification of the value stored under a key (python mutation of
the object held in `d[k]`). -/
def assocModify {κ α : Type} [DecidableEq κ] (l : List (κ × α)) (k : κ)
    (f : α → α) : List (κ × α) :=
  l.map (fun p => if p.1 = k then (p.1, f p.2) else p)

/-- Tag dictionaries of OSM elements: key-value pairs of strings. -/
abbrev Tags := List (String × String)

/-- Tag lookup (python `tags[k]` / `tags.get(k)`). -/
def Tags.get (t : Tags) (k : String) : Option String := assocGet t k

/-- Python `k in tags`. -/
def Tags.has (t : Tags) (k : String) : Bool := (assocGet t k).isSome

/-- `add_tag` of the source: python `tags[k] = v`. -/
def Tags.set (t : Tags) (k v : String) : Tags := assocSet t k v

/-- `delete_tag` of the source: python `del tags[k]` (only ever called on
present keys in the source; on an absent key the model is a no-op where
python raises `KeyError`). -/
def Tags.del (t : Tags) (k : String) : Tags := t.filter (fun p => p.1 != k)

/-- `Node` of the source: identifier, latitude, longitude, tags. -/
structure Node where
  osm_id : Int
  lat : ℚ
  lon : ℚ
  tags : Tags
deriving DecidableEq

/-- `Nodes` of the source: the node collection, its coordinate index and the
`_lowest_id` counter (initialised to `-1`). -/
structure Nodes where
  nodes : List (Int × Node)
  nodes_by_lat_lon : List ((ℚ × ℚ) × Node)
  lowest_id : Int
deriving DecidableEq

def Nodes.empty : Nodes := ⟨[], [], -1⟩

/-- `Nodes.add`: store under the id, index by `(lat, lon)`, lower the counter
if the incoming id is below it. -/
def Nodes.add (c : Nodes) (n : Node) : Nodes :=
  { nodes := assocSet c.nodes n.osm_id n
    nodes_by_lat_lon := assocSet c.nodes_by_lat_lon (n.lat, n.lon) n
    lowest_id := if n.osm_id < c.lowest_id then n.osm_id else c.lowest_id }

/-- `Nodes.add_new`: decrement the counter, create a node carrying the new
counter value as id, add it. -/
def Nodes.add_new (c : Nodes) (lat lon : ℚ) : Nodes × Node :=
  let n : Node := ⟨c.lowest_id - 1, lat, lon, []⟩
  (Nodes.add { c with lowest_id := c.lowest_id - 1 } n, n)

/-- `Nodes.add_new_if_not_exist`: exact-coordinate lookup in the index,
allocation only on a miss. -/
def Nodes.add_new_if_not_exist (c : Nodes) (lat lon : ℚ) : Nodes × Node :=
  match assocGet c.nodes_by_lat_lon (lat, lon) with
  | some n => (c, n)
  | none => c.add_new lat lon

/-- `Way` of the source: identifier, tags and the ordered node list. -/
structure Way where
  osm_id : Int
  tags : Tags
  nodes : List Node
deriving DecidableEq

/-- `Ways` of the source. -/
structure Ways where
  ways : List (Int × Way)
  lowest_id : Int
deriving DecidableEq

def Ways.empty : Ways := ⟨[], -1⟩

def Ways.add (c : Ways) (w : Way) : Ways :=
  { ways := assocSet c.ways w.osm_id w
    lowest_id := if w.osm_id < c.lowest_id then w.osm_id else c.lowest_id }

/-- `Ways.add_new` returns the fresh (empty) way's id. -/
def Ways.add_new (c : Ways) : Ways × Int :=
  let w : Way := ⟨c.lowest_id - 1, [], []⟩
  (Ways.add { c with lowest_id := c.lowest_id - 1 } w, w.osm_id)

/-- Mutation of the way object held in the collection. -/
def Ways.modifyWay (c : Ways) (i : Int) (f : Way → Way) : Ways :=
  { c with ways := assocModify c.ways i f }

/-- Reference to an OSM element by kind and identifier (the python object
references held in relation member lists and in the `bldgs` buckets). -/
inductive ERef : Type where
  | node (id : Int)
  | way (id : Int)
  | rel (id : Int)
deriving DecidableEq

/-- `Relation` of the source: identifier, tags, ordered `(member, role)`
list. -/
structure Relation where
  osm_id : Int
  tags : Tags
  members : List (ERef × String)
deriving DecidableEq

/-- `Relations` of the source. -/
structure Relations where
  relations : List (Int × Relation)
  lowest_id : Int
deriving DecidableEq

def Relations.empty : Relations := ⟨[], -1⟩

def Relations.add (c : Relations) (r : Relation) : Relations :=
  { relations := assocSet c.relations r.osm_id r
    lowest_id := if r.osm_id < c.lowest_id then r.osm_id else c.lowest_id }

/-- `Relations.add_new` returns the fresh (empty) relation's id. -/
def Relations.add_new (c : Relations) : Relations × Int :=
  let r : Relation := ⟨c.lowest_id - 1, [], []⟩
  (Relations.add { c with lowest_id := c.lowest_id - 1 } r, r.osm_id)

/-- Mutation of the relation object held in the collection. -/
def Relations.modifyRel (c : Relations) (i : Int) (f : Relation → Relation) :
    Relations :=
  { c with relations := assocModify c.relations i f }

/-- `part_level_tags` of `MakeBuildingRelations.__init__`. -/
def part_level_tags : List String := ["height", "type"]

/-- `bldg_and_part_level_tags` of `MakeBuildingRelations.__init__`. -/
def bldg_and_part_level_tags : List String := ["building"]

/-- The mutable state of a `MakeBuildingRelations` run: the join-tag buckets
and the three element collections. -/
structure MBR where
  bldgs : List (String × List ERef)
  nodes : Nodes
  ways : Ways
  relations : Relations
deriving DecidableEq

def MBR.empty : MBR := ⟨[], Nodes.empty, Ways.empty, Relations.empty⟩

/-- python `self.bldgs.setdefault(v, []).append(x)`. -/
def assocAppend (l : List (String × List ERef)) (k : String) (e : ERef) :
    List (String × List ERef) :=
  if (assocGet l k).isSome then assocModify l k (fun es => es ++ [e])
  else l ++ [(k, [e])]

/-- `MakeBuildingRelations.end` on a closing `way` tag: add the way to the
collection and bucket it when it carries the join tag. -/
def MBR.endWay (bldg_id_tag : String) (st : MBR) (w : Way) : MBR :=
  let st1 := { st with ways := st.ways.add w }
  match w.tags.get bldg_id_tag with
  | some v => { st1 with bldgs := assocAppend st1.bldgs v (ERef.way w.osm_id) }
  | none => st1

/-- `MakeBuildingRelations.end` on a closing `relation` tag. -/
def MBR.endRelation (bldg_id_tag : String) (st : MBR) (r : Relation) : MBR :=
  let st1 := { st with relations := st.relations.add r }
  match r.tags.get bldg_id_tag with
  | some v => { st1 with bldgs := assocAppend st1.bldgs v (ERef.rel r.osm_id) }
  | none => st1

/-- Shapely polygon: exterior ring and interior rings, coordinates stored as
`(lon, lat)` pairs exactly as the source builds them. -/
structure Polygon where
  exterior : List (ℚ × ℚ)
  interiors : List (List (ℚ × ℚ))
deriving DecidableEq

/-- Result of shapely's `cascaded_union` as consumed by the source: a single
polygon or a multipolygon. -/
inductive UnionResult : Type where
  | poly (p : Polygon)
  | multi (ps : List Polygon)
deriving DecidableEq

/-- Shapely's `LinearRing` construction closes a ring implicitly: when the
first and last coordinates differ the first is appended at the end. -/
def closeRing (pts : List (ℚ × ℚ)) : List (ℚ × ℚ) :=
  match pts with
  | [] => []
  | p :: _ => if pts.getLast? = some p then pts else pts ++ [p]

/-- `MakeBuildingRelations.way_to_polygon`: collect `(lon, lat)` per node and
hand the list to shapely's `Polygon` constructor (no closure check of its
own; the library closes the ring implicitly). -/
def way_to_polygon (w : Way) : Polygon :=
  ⟨closeRing (w.nodes.map (fun n => (n.lon, n.lat))), []⟩

/-- Coordinate line contributed by one relation member inside
`relation_to_polygons` (the source unconditionally reads `way.nodes` off the
member, which is a way in every reachable input). -/
def memberLine (st : MBR) (m : ERef × String) : List (ℚ × ℚ) :=
  match m.1 with
  | ERef.way i =>
    match assocGet st.ways.ways i with
    | some w => w.nodes.map (fun n => (n.lon, n.lat))
    | none => []
  | _ => []

/-- `MakeBuildingRelations.relation_to_polygons`: feed every member's
coordinate line to shapely's `polygonize` (the `assembleRings` parameter). -/
def relation_to_polygons (assembleRings : List (List (ℚ × ℚ)) → List Polygon)
    (st : MBR) (r : Relation) : List Polygon :=
  assembleRings (r.members.map (memberLine st))

/-- One iteration of the point loop in `_points_to_way`: find-or-create the
node at `(lat, lon) = (point[1], point[0])` and append it to the way. -/
def MBR.pwStep (wid : Int) (s : MBR) (point : ℚ × ℚ) : MBR :=
  let r := s.nodes.add_new_if_not_exist point.2 point.1
  { s with nodes := r.1
           ways := s.ways.modifyWay wid
             (fun w => { w with nodes := w.nodes ++ [r.2] }) }

/-- `MakeBuildingRelations._points_to_way`. -/
def MBR.points_to_way (st : MBR) (points : List (ℚ × ℚ)) : MBR × Int :=
  let r := st.ways.add_new
  let st1 := { st with ways := r.1 }
  (points.foldl (MBR.pwStep r.2) st1, r.2)

/-- `MakeBuildingRelations._simple_polygon_to_way`. -/
def MBR.simple_polygon_to_way (st : MBR) (p : Polygon) : MBR × Int :=
  st.points_to_way p.exterior

/-- python `relation.add_member(element, role)` through the collection. -/
def MBR.relAddMember (st : MBR) (rid : Int) (e : ERef) (role : String) : MBR :=
  { st with relations :=
      st.relations.modifyRel rid (fun r => { r with members := r.members ++ [(e, role)] }) }

/-- python `relation.add_tag(k, v)` through the collection. -/
def MBR.relAddTag (st : MBR) (rid : Int) (k v : String) : MBR :=
  { st with relations :=
      st.relations.modifyRel rid (fun r => { r with tags := r.tags.set k v }) }

/-- One iteration of the interior-ring loop in `add_polygon_to_relation`. -/
def MBR.apStep (rid : Int) (s : MBR) (ring : List (ℚ × ℚ)) : MBR :=
  let r := s.points_to_way ring
  r.1.relAddMember rid (ERef.way r.2) "inner"

/-- `MakeBuildingRelations.add_polygon_to_relation`: outer ring as an "outer"
way member, each interior ring as an "inner" way member. -/
def MBR.add_polygon_to_relation (st : MBR) (p : Polygon) (rid : Int) : MBR :=
  let r := st.points_to_way p.exterior
  let st2 := r.1.relAddMember rid (ERef.way r.2) "outer"
  p.interiors.foldl (MBR.apStep rid) st2

/-- `MakeBuildingRelations._polygon_with_interior_to_relation`. -/
def MBR.polygon_with_interior_to_relation (st : MBR) (p : Polygon) : MBR × Int :=
  let r := st.relations.add_new
  let st1 := { st with relations := r.1 }
  let st2 := st1.relAddTag r.2 "type" "multipolygon"
  (st2.add_polygon_to_relation p r.2, r.2)

/-- `MakeBuildingRelations.convert_multipolygon`: one flat relation, every
constituent polygon's rings added to it. -/
def MBR.convert_multipolygon (st : MBR) (ps : List Polygon) : MBR × Int :=
  let r := st.relations.add_new
  let st1 := { st with relations := r.1 }
  let st2 := st1.relAddTag r.2 "type" "multipolygon"
  (ps.foldl (fun s p => s.add_polygon_to_relation p r.2) st2, r.2)

/-- Lines 611-617 of `close`: classify the union result and encode it as a
way (single polygon, no holes), a `type=multipolygon` relation (holes), or a
flattened `type=multipolygon` relation (multiple pieces). -/
def MBR.encodeOutline (st : MBR) (outline : UnionResult) : MBR × ERef :=
  match outline with
  | UnionResult.poly p =>
    if p.interiors = [] then
      let r := st.simple_polygon_to_way p
      (r.1, ERef.way r.2)
    else
      let r := st.polygon_with_interior_to_relation p
      (r.1, ERef.rel r.2)
  | UnionResult.multi ps =>
    let r := st.convert_multipolygon ps
    (r.1, ERef.rel r.2)

/-- Lines 584-596 of `close`, per element: top-level `building` wins over
`building:part`; a lone `building:part` is promoted (lower-cased) to
`building`. -/
def normalizeTags (t : Tags) : Tags :=
  if t.has "building" && t.has "building:part" then
    t.del "building:part"
  else if !(t.has "building") && t.has "building:part" then
    match t.get "building:part" with
    | some v => (t.set "building" v.toLower).del "building:part"
    | none => t
  else t

/-- Category normalization applied to one way (lines 585-590 act on the
way's tags in place). -/
def normalizeWay (w : Way) : Way := { w with tags := normalizeTags w.tags }

/-- Category normalization applied to one relation (lines 591-596). -/
def normalizeRelation (r : Relation) : Relation :=
  { r with tags := normalizeTags r.tags }

/-- The preprocessing pass of `close`: normalize the category tags of every
way and every relation. -/
def MBR.preprocess (st : MBR) : MBR :=
  { st with
    ways := { st.ways with
      ways := st.ways.ways.map (fun p => (p.1, normalizeWay p.2)) }
    relations := { st.relations with
      relations := st.relations.relations.map
        (fun p => (p.1, normalizeRelation p.2)) } }

/-- Body of the tag loop in lines 621-627 of `close`: copy non-part-level
tags onto the outline, record keys that are neither part-level nor shared
for deletion. -/
def copyStep (acc : Tags × List String) (kv : String × String) :
    Tags × List String :=
  ( if kv.1 ∈ part_level_tags then acc.1 else acc.1.set kv.1 kv.2
  , if kv.1 ∉ part_level_tags ∧ kv.1 ∉ bldg_and_part_level_tags then
      acc.2 ++ [kv.1]
    else acc.2 )

/-- Lines 620-632 of `close` for a single building part, as a pure function
from (outline tags, part tags) to the updated pair: copy, delete, then rename
`building` to `building:part`. -/
def redistributeTags (elemTags memTags : Tags) : Tags × Tags :=
  let c := memTags.foldl copyStep (elemTags, [])
  let m1 := c.2.foldl Tags.del memTags
  let m2 :=
    match m1.get "building" with
    | some v => (m1.set "building:part" v).del "building"
    | none => m1
  (c.1, m2)

/-- Tags of the element a reference points at (python attribute read through
the shared object). -/
def MBR.getElemTags (st : MBR) (e : ERef) : Tags :=
  match e with
  | ERef.node i =>
    match assocGet st.nodes.nodes i with
    | some n => n.tags
    | none => []
  | ERef.way i =>
    match assocGet st.ways.ways i with
    | some w => w.tags
    | none => []
  | ERef.rel i =>
    match assocGet st.relations.relations i with
    | some r => r.tags
    | none => []

/-- Overwrite the tags of the element a reference points at (python attribute
mutation through the shared object). -/
def MBR.setElemTags (st : MBR) (e : ERef) (t : Tags) : MBR :=
  match e with
  | ERef.node i =>
    { st with nodes := { st.nodes with
        nodes := assocModify st.nodes.nodes i (fun n => { n with tags := t }) } }
  | ERef.way i => { st with ways := st.ways.modifyWay i (fun w => { w with tags := t }) }
  | ERef.rel i => { st with relations := st.relations.modifyRel i (fun r => { r with tags := t }) }

/-- One iteration of the part loop in lines 620-633 of `close`: redistribute
the tags between outline element and part, then add the part to the building
relation with role "part". -/
def MBR.redistributeStep (st : MBR) (element : ERef) (brel : Int)
    (part : ERef) : MBR :=
  let r := redistributeTags (st.getElemTags element) (st.getElemTags part)
  let st1 := st.setElemTags element r.1
  let st2 := st1.setElemTags part r.2
  st2.relAddMember brel part "part"

/-- The polygon list collected in lines 604-608 of `close`: one polygon per
way member, `relation_to_polygons` per relation member. -/
def MBR.collectPolygons (assembleRings : List (List (ℚ × ℚ)) → List Polygon)
    (st : MBR) (members : List ERef) : List Polygon :=
  (members.map (fun m =>
    match m with
    | ERef.way i =>
      match assocGet st.ways.ways i with
      | some w => [way_to_polygon w]
      | none => []
    | ERef.rel i =>
      match assocGet st.relations.relations i with
      | some r => relation_to_polygons assembleRings st r
      | none => []
    | ERef.node _ => [])).flatten

/-- Lines 611-633 of `close` given the already-computed union result: encode
the outline, attach it with role "outline", then run the part loop. -/
def MBR.processBucketCore (st : MBR) (brel : Int) (outline : UnionResult)
    (members : List ERef) : MBR × ERef :=
  let r := st.encodeOutline outline
  let st2 := r.1.relAddMember brel r.2 "outline"
  (members.foldl (fun s part => s.redistributeStep r.2 brel part) st2, r.2)

/-- Lines 601-633 of `close` for one bucket: allocate the building relation,
tag it `type=building`, collect the member polygons, union them (external
capability `union`), encode and redistribute. -/
def MBR.processBucket (union : List Polygon → UnionResult)
    (assembleRings : List (List (ℚ × ℚ)) → List Polygon)
    (st : MBR) (members : List ERef) : MBR × Int × ERef :=
  let r := st.relations.add_new
  let st1 := { st with relations := r.1 }
  let st2 := st1.relAddTag r.2 "type" "building"
  let polygons := st2.collectPolygons assembleRings members
  let c := st2.processBucketCore r.2 (union polygons) members
  (c.1, r.2, c.2)

/-- Lines 598-633 of `close` for one bucket of the `bldgs` dictionary:
buckets with at most one member are skipped. -/
def MBR.closeBucketStep (union : List Polygon → UnionResult)
    (assembleRings : List (List (ℚ × ℚ)) → List Polygon)
    (st : MBR) (bucket : String × List ERef) : MBR :=
  if 1 < bucket.2.length then
    (st.processBucket union assembleRings bucket.2).1
  else st

/-- The in-memory effect of `MakeBuildingRelations.close` (the final XML
write is the external serializer): normalize category tags, then process
every bucket. -/
def MBR.closeModel (union : List Polygon → UnionResult)
    (assembleRings : List (List (ℚ × ℚ)) → List Polygon) (st : MBR) : MBR :=
  let st1 := st.preprocess
  st1.bldgs.foldl (MBR.closeBucketStep union assembleRings) st1

/-- Least key of a collection folded below the `-1` sentinel: the value the
`_lowest_id` counter maintains. -/
def keyMin (ks : List Int) : Int := ks.foldl min (-1)

def Nodes.minId (c : Nodes) : Int := keyMin (c.nodes.map Prod.fst)

/-- Counter invariant of a node collection built through `add`/`add_new`. -/
def Nodes.WF (c : Nodes) : Prop := c.lowest_id = c.minId

/-- Consistency of the coordinate index: every entry is keyed by the stored
node's own coordinates. -/
def Nodes.IndexWF (c : Nodes) : Prop :=
  ∀ p ∈ c.nodes_by_lat_lon, p.2.lat = p.1.1 ∧ p.2.lon = p.1.2

def Ways.minId (c : Ways) : Int := keyMin (c.ways.map Prod.fst)

def Ways.WF (c : Ways) : Prop := c.lowest_id = c.minId

def Relations.minId (c : Relations) : Int := keyMin (c.relations.map Prod.fst)

def Relations.WF (c : Relations) : Prop := c.lowest_id = c.minId

/-! ### Association-list lemmas -/

theorem assocGet_append_some {κ α : Type} [DecidableEq κ]
    {l₁ l₂ : List (κ × α)} {k : κ} {v : α} (h : assocGet l₁ k = some v) :
    assocGet (l₁ ++ l₂) k = some v := by
  induction l₁ with
  | nil => simp [assocGet] at h
  | cons p l ih =>
    by_cases hp : p.1 = k
    · simp_all [assocGet, hp]
    · simp_all [assocGet, hp]

theorem assocGet_append_none {κ α : Type} [DecidableEq κ]
    {l₁ : List (κ × α)} (l₂ : List (κ × α)) {k : κ} (h : assocGet l₁ k = none) :
    assocGet (l₁ ++ l₂) k = assocGet l₂ k := by
  induction l₁ with
  | nil => simp
  | cons p l ih =>
    by_cases hp : p.1 = k
    · simp_all [assocGet, hp]
    · simp_all [assocGet, hp]

theorem assocGet_replaceMap_self {κ α : Type} [DecidableEq κ]
    (l : List (κ × α)) (k : κ) (v : α) :
    assocGet (l.map (fun p => if p.1 = k then (k, v) else p)) k
      = (assocGet l k).map (fun _ => v) := by
  induction l with
  | nil => rfl
  | cons p l ih =>
    by_cases hp : p.1 = k
    · simp [assocGet, hp]
    · simp [assocGet, hp, ih]

theorem assocGet_replaceMap_ne {κ α : Type} [DecidableEq κ]
    (l : List (κ × α)) (k k' : κ) (v : α) (h : k' ≠ k) :
    assocGet (l.map (fun p => if p.1 = k then (k, v) else p)) k'
      = assocGet l k' := by
  induction l with
  | nil => rfl
  | cons p l ih =>
    by_cases hp : p.1 = k
    · simp [assocGet, hp, Ne.symm h, ih]
    · simp [assocGet, hp, ih]

theorem assocGet_modifyMap_self {κ α : Type} [DecidableEq κ]
    (l : List (κ × α)) (k : κ) (f : α → α) :
    assocGet (l.map (fun p => if p.1 = k then (p.1, f p.2) else p)) k
      = (assocGet l k).map f := by
  induction l with
  | nil => rfl
  | cons p l ih =>
    by_cases hp : p.1 = k
    · simp [assocGet, hp]
    · simp [assocGet, hp, ih]

theorem assocGet_modifyMap_ne {κ α : Type} [DecidableEq κ]
    (l : List (κ × α)) (k k' : κ) (f : α → α) (h : k' ≠ k) :
    assocGet (l.map (fun p => if p.1 = k then (p.1, f p.2) else p)) k'
      = assocGet l k' := by
  induction l with
  | nil => rfl
  | cons p l ih =>
    by_cases hp : p.1 = k
    · simp [assocGet, hp, Ne.symm h, ih]
    · simp [assocGet, hp, ih]

theorem assocGet_assocSet_self {κ α : Type} [DecidableEq κ]
    (l : List (κ × α)) (k : κ) (v : α) : assocGet (assocSet l k v) k = some v := by
  unfold assocSet
  by_cases hs : (assocGet l k).isSome
  · rw [if_pos hs, assocGet_replaceMap_self]
    obtain ⟨w, hw⟩ := Option.isSome_iff_exists.mp hs
    rw [hw]
    rfl
  · rw [if_neg hs]
    rw [Option.not_isSome_iff_eq_none] at hs
    rw [assocGet_append_none _ hs]
    simp [assocGet]

theorem assocGet_assocSet_ne {κ α : Type} [DecidableEq κ]
    (l : List (κ × α)) (k k' : κ) (v : α) (h : k' ≠ k) :
    assocGet (assocSet l k v) k' = assocGet l k' := by
  unfold assocSet
  by_cases hs : (assocGet l k).isSome
  · rw [if_pos hs, assocGet_replaceMap_ne _ _ _ _ h]
  · rw [if_neg hs]
    cases h2 : assocGet l k' with
    | some w => rw [assocGet_append_some h2]
    | none =>
      rw [assocGet_append_none _ h2]
      simp [assocGet, Ne.symm h]

theorem assocGet_assocModify_self {κ α : Type} [DecidableEq κ]
    (l : List (κ × α)) (k : κ) (f : α → α) :
    assocGet (assocModify l k f) k = (assocGet l k).map f := by
  unfold assocModify
  exact assocGet_modifyMap_self l k f

theorem assocGet_assocModify_ne {κ α : Type} [DecidableEq κ]
    (l : List (κ × α)) (k k' : κ) (f : α → α) (h : k' ≠ k) :
    assocGet (assocModify l k f) k' = assocGet l k' := by
  unfold assocModify
  exact assocGet_modifyMap_ne l k k' f h

theorem assocGet_mem {κ α : Type} [DecidableEq κ]
    {l : List (κ × α)} {k : κ} {v : α} (h : assocGet l k = some v) : (k, v) ∈ l := by
  induction l with
  | nil => simp [assocGet] at h
  | cons p l ih =>
    by_cases hp : p.1 = k
    · simp only [assocGet, hp, if_true, Option.some.injEq] at h
      have hpv : p = (k, v) := by
        cases p
        simp_all
      exact hpv ▸ List.mem_cons_self _ _
    · simp only [assocGet, hp, if_false] at h
      exact List.mem_cons_of_mem _ (ih h)

theorem assocGet_eq_none {κ α : Type} [DecidableEq κ]
    {l : List (κ × α)} {k : κ} (h : ∀ p ∈ l, p.1 ≠ k) : assocGet l k = none := by
  induction l with
  | nil => rfl
  | cons p l ih =>
    simp only [List.mem_cons, forall_eq_or_imp] at h
    simp [assocGet, h.1, ih h.2]

theorem ne_of_assocGet_eq_none {κ α : Type} [DecidableEq κ]
    {l : List (κ × α)} {k : κ} (h : assocGet l k = none) : ∀ p ∈ l, p.1 ≠ k := by
  induction l with
  | nil => simp
  | cons p l ih =>
    by_cases hp : p.1 = k
    · simp [assocGet, hp] at h
    · simp only [assocGet, hp, if_false] at h
      simpa [hp] using ih h

theorem mem_assocSet {κ α : Type} [DecidableEq κ]
    {l : List (κ × α)} {k : κ} {v : α} {p : κ × α} (h : p ∈ assocSet l k v) :
    p ∈ l ∨ p = (k, v) := by
  unfold assocSet at h
  by_cases hs : (assocGet l k).isSome
  · rw [if_pos hs] at h
    rcases List.mem_map.mp h with ⟨q, hq, hqe⟩
    by_cases hqk : q.1 = k
    · rw [if_pos hqk] at hqe
      right
      exact hqe.symm
    · rw [if_neg hqk] at hqe
      left
      exact hqe ▸ hq
  · rw [if_neg hs] at h
    rcases List.mem_append.mp h with h1 | h1
    · left
      exact h1
    · right
      simpa using h1

theorem map_fst_replaceMap {κ α : Type} [DecidableEq κ]
    (l : List (κ × α)) (k : κ) (v : α) :
    (l.map (fun p => if p.1 = k then (k, v) else p)).map Prod.fst
      = l.map Prod.fst := by
  induction l with
  | nil => rfl
  | cons p l ih =>
    by_cases hp : p.1 = k
    · simp [hp, ih]
    · simp [hp, ih]

theorem map_fst_assocSet {κ α : Type} [DecidableEq κ]
    (l : List (κ × α)) (k : κ) (v : α) :
    (assocSet l k v).map Prod.fst =
      if (assocGet l k).isSome then l.map Prod.fst else l.map Prod.fst ++ [k] := by
  unfold assocSet
  by_cases hs : (assocGet l k).isSome
  · rw [if_pos hs, if_pos hs, map_fst_replaceMap]
  · rw [if_neg hs, if_neg hs]
    simp

theorem map_fst_assocModify {κ α : Type} [DecidableEq κ]
    (l : List (κ × α)) (k : κ) (f : α → α) :
    (assocModify l k f).map Prod.fst = l.map Prod.fst := by
  unfold assocModify
  induction l with
  | nil => rfl
  | cons p l ih =>
    by_cases hp : p.1 = k
    · simpa [hp] using ih
    · simpa [hp] using ih

theorem assocGet_filterNe_self {κ α : Type} [DecidableEq κ]
    (l : List (κ × α)) (k : κ) :
    assocGet (l.filter (fun p => p.1 != k)) k = none := by
  induction l with
  | nil => rfl
  | cons p l ih =>
    by_cases hp : p.1 = k
    · simpa [List.filter_cons, hp] using ih
    · simpa [List.filter_cons, hp, assocGet] using ih

theorem assocGet_filterNe_ne {κ α : Type} [DecidableEq κ]
    (l : List (κ × α)) (k k' : κ) (h : k' ≠ k) :
    assocGet (l.filter (fun p => p.1 != k)) k' = assocGet l k' := by
  induction l with
  | nil => rfl
  | cons p l ih =>
    by_cases hp : p.1 = k
    · simp [List.filter_cons, hp, assocGet, Ne.symm h, ih]
    · simp [List.filter_cons, hp, assocGet, ih]

/-! ### keyMin lemmas -/

theorem foldl_min_le_init (l : List Int) (a : Int) : l.foldl min a ≤ a := by
  induction l generalizing a with
  | nil => simp
  | cons x xs ih => exact le_trans (ih (min a x)) (min_le_left a x)

theorem foldl_min_le_mem {l : List Int} {x : Int} (hx : x ∈ l) (a : Int) :
    l.foldl min a ≤ x := by
  induction l generalizing a with
  | nil => cases hx
  | cons y ys ih =>
    rcases List.mem_cons.mp hx with h | h
    · subst h
      exact le_trans (foldl_min_le_init ys (min a x)) (min_le_right a x)
    · exact ih h (min a y)

theorem keyMin_le_neg_one (ks : List Int) : keyMin ks ≤ -1 :=
  foldl_min_le_init ks (-1)

theorem keyMin_le_mem {ks : List Int} {k : Int} (h : k ∈ ks) : keyMin ks ≤ k :=
  foldl_min_le_mem h (-1)

theorem keyMin_append (ks : List Int) (k : Int) :
    keyMin (ks ++ [k]) = min (keyMin ks) k := by
  simp [keyMin, List.foldl_append]

/-! ### Tag-dictionary lemmas -/

theorem Tags.get_set_self (t : Tags) (k v : String) : (t.set k v).get k = some v :=
  assocGet_assocSet_self t k v

theorem Tags.get_set_ne (t : Tags) (k k' v : String) (h : k' ≠ k) :
    (t.set k v).get k' = t.get k' :=
  assocGet_assocSet_ne t k k' v h

theorem Tags.get_del_self (t : Tags) (k : String) : (t.del k).get k = none :=
  assocGet_filterNe_self t k

theorem Tags.get_del_ne (t : Tags) (k k' : String) (h : k' ≠ k) :
    (t.del k).get k' = t.get k' :=
  assocGet_filterNe_ne t k k' h

theorem Tags.get_eq_none_of_not_has {t : Tags} {k : String}
    (h : t.has k = false) : t.get k = none := by
  unfold Tags.has at h
  unfold Tags.get
  exact Option.not_isSome_iff_eq_none.mp (by simp [h])

theorem Tags.has_of_get_eq_some {t : Tags} {k v : String}
    (h : t.get k = some v) : t.has k = true := by
  unfold Tags.has
  unfold Tags.get at h
  simp [h]

/-! ### Tag-redistribution lemmas (pure core of the part loop) -/

theorem copyStep_snd_pos {acc : Tags × List String} {kv : String × String}
    (h : kv.1 ∉ part_level_tags ∧ kv.1 ∉ bldg_and_part_level_tags) :
    (copyStep acc kv).2 = acc.2 ++ [kv.1] := by
  simp [copyStep, h]

theorem copyStep_snd_neg {acc : Tags × List String} {kv : String × String}
    (h : ¬(kv.1 ∉ part_level_tags ∧ kv.1 ∉ bldg_and_part_level_tags)) :
    (copyStep acc kv).2 = acc.2 := by
  simp [copyStep, h]

theorem copyStep_fst_pos {acc : Tags × List String} {kv : String × String}
    (h : kv.1 ∈ part_level_tags) : (copyStep acc kv).1 = acc.1 := by
  simp [copyStep, h]

theorem copyStep_fst_neg {acc : Tags × List String} {kv : String × String}
    (h : kv.1 ∉ part_level_tags) : (copyStep acc kv).1 = acc.1.set kv.1 kv.2 := by
  simp [copyStep, h]

theorem copyFold_snd_sub {l : List (String × String)} {acc : Tags × List String}
    {k : String} (h : k ∈ (l.foldl copyStep acc).2) :
    k ∈ acc.2 ∨ (k ∉ part_level_tags ∧ k ∉ bldg_and_part_level_tags) := by
  induction l generalizing acc with
  | nil => exact Or.inl h
  | cons kv l ih =>
    simp only [List.foldl_cons] at h
    rcases ih h with hd | hc
    · by_cases hcond : kv.1 ∉ part_level_tags ∧ kv.1 ∉ bldg_and_part_level_tags
      · rw [copyStep_snd_pos hcond] at hd
        rcases List.mem_append.mp hd with h1 | h1
        · exact Or.inl h1
        · right
          rwa [List.mem_singleton.mp h1]
      · rw [copyStep_snd_neg hcond] at hd
        exact Or.inl hd
    · exact Or.inr hc

theorem mem_copyFold_snd_of_mem_init {l : List (String × String)}
    {acc : Tags × List String} {k : String} (h : k ∈ acc.2) :
    k ∈ (l.foldl copyStep acc).2 := by
  induction l generalizing acc with
  | nil => exact h
  | cons kv l ih =>
    simp only [List.foldl_cons]
    apply ih
    by_cases hcond : kv.1 ∉ part_level_tags ∧ kv.1 ∉ bldg_and_part_level_tags
    · rw [copyStep_snd_pos hcond]
      exact List.mem_append_left _ h
    · rwa [copyStep_snd_neg hcond]

theorem mem_copyFold_snd {l : List (String × String)} {acc : Tags × List String}
    {k : String} {v : String} (hm : (k, v) ∈ l)
    (h1 : k ∉ part_level_tags) (h2 : k ∉ bldg_and_part_level_tags) :
    k ∈ (l.foldl copyStep acc).2 := by
  induction l generalizing acc with
  | nil => cases hm
  | cons kv l ih =>
    simp only [List.foldl_cons]
    rcases List.mem_cons.mp hm with he | hmem
    · apply mem_copyFold_snd_of_mem_init
      have hk1 : kv.1 = k := by rw [← he]
      rw [copyStep_snd_pos (by rw [hk1]; exact ⟨h1, h2⟩), hk1]
      exact List.mem_append_right _ (List.mem_singleton.mpr rfl)
    · exact ih hmem

theorem copyFold_fst_stable {l : List (String × String)}
    {acc : Tags × List String} {k : String} (h : ∀ p ∈ l, p.1 ≠ k) :
    (l.foldl copyStep acc).1.get k = acc.1.get k := by
  induction l generalizing acc with
  | nil => rfl
  | cons kv l ih =>
    simp only [List.mem_cons, forall_eq_or_imp] at h
    simp only [List.foldl_cons]
    rw [ih h.2]
    by_cases hcond : kv.1 ∈ part_level_tags
    · rw [copyStep_fst_pos hcond]
    · rw [copyStep_fst_neg hcond]
      exact Tags.get_set_ne acc.1 kv.1 k kv.2 (Ne.symm h.1)

theorem copyFold_fst_part {l : List (String × String)}
    {acc : Tags × List String} {k : String} (h : k ∈ part_level_tags) :
    (l.foldl copyStep acc).1.get k = acc.1.get k := by
  induction l generalizing acc with
  | nil => rfl
  | cons kv l ih =>
    simp only [List.foldl_cons]
    rw [ih]
    by_cases hcond : kv.1 ∈ part_level_tags
    · rw [copyStep_fst_pos hcond]
    · rw [copyStep_fst_neg hcond]
      exact Tags.get_set_ne acc.1 kv.1 k kv.2 (fun he => hcond (he ▸ h))

theorem copyFold_fst_mem {l : List (String × String)}
    {acc : Tags × List String} {k v : String} (hnd : (l.map Prod.fst).Nodup)
    (hm : (k, v) ∈ l) (hk : k ∉ part_level_tags) :
    (l.foldl copyStep acc).1.get k = some v := by
  induction l generalizing acc with
  | nil => cases hm
  | cons kv l ih =>
    simp only [List.map_cons, List.nodup_cons] at hnd
    simp only [List.foldl_cons]
    rcases List.mem_cons.mp hm with he | hmem
    · have hk1 : kv.1 = k := by rw [← he]
      have hstab : ∀ p ∈ l, p.1 ≠ k := by
        intro p hp hpk
        have hmem2 : p.1 ∈ l.map Prod.fst := List.mem_map_of_mem Prod.fst hp
        rw [hpk, ← hk1] at hmem2
        exact hnd.1 hmem2
      rw [copyFold_fst_stable hstab]
      rw [copyStep_fst_neg (hk1 ▸ hk)]
      have hv : kv.2 = v := by rw [← he]
      rw [hk1, hv]
      exact Tags.get_set_self acc.1 k v
    · exact ih hnd.2 hmem

theorem getFoldDel_none_preserved {ks : List String} {t : Tags} {k : String}
    (h : t.get k = none) : (ks.foldl Tags.del t).get k = none := by
  induction ks generalizing t with
  | nil => exact h
  | cons k0 ks ih =>
    simp only [List.foldl_cons]
    apply ih
    by_cases hk : k = k0
    · rw [hk]
      exact Tags.get_del_self t k0
    · rw [Tags.get_del_ne t k0 k hk]
      exact h

theorem getFoldDel_mem {ks : List String} {t : Tags} {k : String}
    (h : k ∈ ks) : (ks.foldl Tags.del t).get k = none := by
  induction ks generalizing t with
  | nil => cases h
  | cons k0 ks ih =>
    simp only [List.foldl_cons]
    rcases List.mem_cons.mp h with he | hmem
    · apply getFoldDel_none_preserved
      rw [he]
      exact Tags.get_del_self t k0
    · exact ih hmem

theorem getFoldDel_not_mem {ks : List String} {t : Tags} {k : String}
    (h : k ∉ ks) : (ks.foldl Tags.del t).get k = t.get k := by
  induction ks generalizing t with
  | nil => rfl
  | cons k0 ks ih =>
    simp only [List.mem_cons, not_or] at h
    simp only [List.foldl_cons]
    rw [ih h.2]
    exact Tags.get_del_ne t k0 k h.1

theorem renameStep_get_other {m1 : Tags} {k : String}
    (h1 : k ≠ "building:part") (h2 : k ≠ "building") :
    (match m1.get "building" with
     | some v => (m1.set "building:part" v).del "building"
     | none => m1).get k = m1.get k := by
  cases hb : m1.get "building" with
  | some v =>
    rw [Tags.get_del_ne _ "building" k h2]
    exact Tags.get_set_ne m1 "building:part" k v h1
  | none => rfl

theorem redistributeTags_fst_copied {e m : Tags} {k v : String}
    (hnd : (m.map Prod.fst).Nodup) (hget : m.get k = some v)
    (hk : k ∉ part_level_tags) :
    (redistributeTags e m).1.get k = some v := by
  unfold redistributeTags
  exact copyFold_fst_mem hnd (assocGet_mem hget) hk

theorem redistributeTags_fst_part {e m : Tags} {k : String}
    (hk : k ∈ part_level_tags) :
    (redistributeTags e m).1.get k = e.get k := by
  unfold redistributeTags
  exact copyFold_fst_part hk

theorem redistributeTags_snd_part {e m : Tags} {k : String}
    (hk : k ∈ part_level_tags) :
    (redistributeTags e m).2.get k = m.get k := by
  have hcases : k = "height" ∨ k = "type" := by
    simpa [part_level_tags] using hk
  have hbp : k ≠ "building:part" := by
    rcases hcases with rfl | rfl <;> decide
  have hbd : k ≠ "building" := by
    rcases hcases with rfl | rfl <;> decide
  unfold redistributeTags
  rw [renameStep_get_other hbp hbd]
  have hnd : k ∉ (m.foldl copyStep (e, ([] : List String))).2 := by
    intro hmem
    rcases copyFold_snd_sub hmem with h0 | ⟨h1, _⟩
    · simp at h0
    · exact h1 hk
  exact getFoldDel_not_mem hnd

theorem redistributeTags_snd_removed {e m : Tags} {k : String}
    (h1 : k ∉ part_level_tags) (h2 : k ∉ bldg_and_part_level_tags)
    (h3 : k ≠ "building:part") :
    (redistributeTags e m).2.get k = none := by
  have hkb : k ≠ "building" := by
    intro he
    exact h2 (by rw [he]; simp [bldg_and_part_level_tags])
  unfold redistributeTags
  rw [renameStep_get_other h3 hkb]
  cases hm : m.get k with
  | some v => exact getFoldDel_mem (mem_copyFold_snd (assocGet_mem hm) h1 h2)
  | none =>
    by_cases hdl : k ∈ (m.foldl copyStep (e, ([] : List String))).2
    · exact getFoldDel_mem hdl
    · rw [getFoldDel_not_mem hdl]
      exact hm

theorem redistributeTags_snd_building_some {e m : Tags} {v : String}
    (hv : m.get "building" = some v) :
    (redistributeTags e m).2.get "building" = none ∧
    (redistributeTags e m).2.get "building:part" = some v := by
  have hnotdel : "building" ∉ (m.foldl copyStep (e, ([] : List String))).2 := by
    intro hmem
    rcases copyFold_snd_sub hmem with h0 | ⟨_, h2⟩
    · simp at h0
    · exact h2 (by simp [bldg_and_part_level_tags])
  have hm1 : ((m.foldl copyStep (e, ([] : List String))).2.foldl Tags.del m).get
      "building" = some v := by
    rw [getFoldDel_not_mem hnotdel]
    exact hv
  unfold redistributeTags
  dsimp only
  rw [hm1]
  constructor
  · exact Tags.get_del_self _ "building"
  · rw [Tags.get_del_ne _ "building" "building:part" (by decide)]
    exact Tags.get_set_self _ "building:part" v

theorem redistributeTags_snd_building_none {e m : Tags}
    (hv : m.get "building" = none) :
    (redistributeTags e m).2.get "building" = none ∧
    (redistributeTags e m).2.get "building:part" = none := by
  have hm1 : ((m.foldl copyStep (e, ([] : List String))).2.foldl Tags.del m).get
      "building" = none := by
    by_cases hdl : "building" ∈ (m.foldl copyStep (e, ([] : List String))).2
    · exact getFoldDel_mem hdl
    · rw [getFoldDel_not_mem hdl]
      exact hv
  unfold redistributeTags
  dsimp only
  rw [hm1]
  refine ⟨hm1, ?_⟩
  by_cases hdl : "building:part" ∈ (m.foldl copyStep (e, ([] : List String))).2
  · exact getFoldDel_mem hdl
  · rw [getFoldDel_not_mem hdl]
    cases hbp : m.get "building:part" with
    | some u =>
      exact absurd (mem_copyFold_snd (assocGet_mem hbp) (by decide) (by decide)) hdl
    | none => rfl

theorem redistributeTags_snd_keys {e m : Tags} {k : String}
    (h : k ∉ (["height", "type", "building:part"] : List String)) :
    (redistributeTags e m).2.get k = none := by
  by_cases hkb : k = "building"
  · subst hkb
    cases hv : m.get "building" with
    | some v => exact (redistributeTags_snd_building_some hv).1
    | none => exact (redistributeTags_snd_building_none hv).1
  · simp only [List.mem_cons, not_or] at h
    refine redistributeTags_snd_removed ?_ ?_ h.2.2.1
    · simp [part_level_tags, h.1, h.2.1]
    · simp [bldg_and_part_level_tags, hkb]

theorem redistributeFold_fst_join {ts : List Tags} {e : Tags} {tag v : String}
    (hne : ts ≠ [])
    (hall : ∀ t ∈ ts, t.get tag = some v ∧ (t.map Prod.fst).Nodup)
    (htag : tag ∉ part_level_tags) :
    (ts.foldl (fun acc t => (redistributeTags acc t).1) e).get tag = some v := by
  induction ts generalizing e with
  | nil => cases hne rfl
  | cons t ts ih =>
    simp only [List.foldl_cons]
    rcases hall t (List.mem_cons_self t ts) with ⟨hv, hnd⟩
    by_cases h0 : ts = []
    · subst h0
      simp only [List.foldl_nil]
      exact redistributeTags_fst_copied hnd hv htag
    · exact ih h0 (fun u hu => hall u (List.mem_cons_of_mem t hu))

/-- C2: tag redistribution for every consolidated bucket member.  Every tag
key of the member outside the part-only set {height, type} is copied with its
value onto the outline element; every key in neither the part-only set nor
the shared set {building} ends up removed from the member (`building:part`
excepted, which is exactly the key the subsequent rename may reintroduce);
a retained `building` tag is renamed to `building:part` with the value
unchanged (and no `building:part` appears when the member had no `building`);
part-only keys stay on the member untouched.  The spec's worked example
{height: 10, building: yes, roof:shape: dome} is checked in the witness. -/
theorem mbr_tag_redistribution (elemTags memTags : Tags)
    (hnd : (memTags.map Prod.fst).Nodup) :
    (∀ k v, memTags.get k = some v → k ∉ part_level_tags →
      (redistributeTags elemTags memTags).1.get k = some v) ∧
    (∀ k, k ∉ part_level_tags → k ∉ bldg_and_part_level_tags →
      k ≠ "building:part" → (redistributeTags elemTags memTags).2.get k = none) ∧
    (∀ v, memTags.get "building" = some v →
      (redistributeTags elemTags memTags).2.get "building" = none ∧
      (redistributeTags elemTags memTags).2.get "building:part" = some v) ∧
    (memTags.get "building" = none →
      (redistributeTags elemTags memTags).2.get "building:part" = none) ∧
    (∀ k, k ∈ part_level_tags →
      (redistributeTags elemTags memTags).2.get k = memTags.get k) := by
  refine ⟨?_, ?_, ?_, ?_, ?_⟩
  · intro k v hget hk
    exact redistributeTags_fst_copied hnd hget hk
  · intro k h1 h2 h3
    exact redistributeTags_snd_removed h1 h2 h3
  · intro v hv
    exact redistributeTags_snd_building_some hv
  · intro hv
    exact (redistributeTags_snd_building_none hv).2
  · intro k hk
    exact redistributeTags_snd_part hk

/-- Witness for C2: the spec's worked example, with each hypothesis
discharged at the concrete input. -/
theorem mbr_tag_redistribution_witness :
    redistributeTags [] [("height", "10"), ("building", "yes"), ("roof:shape", "dome")]
      = ([("building", "yes"), ("roof:shape", "dome")],
         [("height", "10"), ("building:part", "yes")]) ∧
    (redistributeTags [] [("height", "10"), ("building", "yes"),
        ("roof:shape", "dome")]).1.get "roof:shape" = some "dome" ∧
    (redistributeTags [] [("height", "10"), ("building", "yes"),
        ("roof:shape", "dome")]).2.get "building:part" = some "yes" ∧
    (redistributeTags [] [("height", "10"), ("building", "yes"),
        ("roof:shape", "dome")]).2.get "height" = some "10" := by
  refine ⟨by decide, ?_, ?_, ?_⟩
  · exact (mbr_tag_redistribution []
      [("height", "10"), ("building", "yes"), ("roof:shape", "dome")]
      (by decide)).1 "roof:shape" "dome" (by decide) (by decide)
  · exact ((mbr_tag_redistribution []
      [("height", "10"), ("building", "yes"), ("roof:shape", "dome")]
      (by decide)).2.2.1 "yes" (by decide)).2
  · rw [(mbr_tag_redistribution []
      [("height", "10"), ("building", "yes"), ("roof:shape", "dome")]
      (by decide)).2.2.2.2 "height" (by decide)]
    decide

/-- C10 counterexample: with the join-tag key `building:part` (which is
neither part-only nor shared, exactly as the claim requires) and a member
carrying both that key and a `building` tag, the join-tag key is NOT removed
from the member: after redistribution the member still carries
`building:part` (the rename step reintroduced it). -/
theorem join_tag_building_part_counterexample :
    "building:part" ∉ part_level_tags ∧
    "building:part" ∉ bldg_and_part_level_tags ∧
    (Tags.get [("building:part", "B1"), ("building", "yes")] "building:part"
      = some "B1") ∧
    (redistributeTags [] [("building:part", "B1"), ("building", "yes")]).2.get
      "building:part" = some "yes" ∧
    ¬((redistributeTags [] [("building:part", "B1"), ("building", "yes")]).2.get
      "building:part" = none) := by decide

/-- C10 (amended): provided the join-tag key is neither part-only, nor
shared, nor the `building:part` key itself, the join-tag key is copied with
its bucket value onto the outline element and removed from the member; after
consolidation the member's keys form a subset of
{height, type, building:part}; folding the copy step over every member of a
bucket (all of which carry the bucket's join-tag value) leaves that value on
the outline. -/
theorem join_tag_redistribution_amended (elemTags memTags : Tags)
    (bldg_id_tag v : String)
    (hnd : (memTags.map Prod.fst).Nodup)
    (hp : bldg_id_tag ∉ part_level_tags)
    (hs : bldg_id_tag ∉ bldg_and_part_level_tags)
    (hbp : bldg_id_tag ≠ "building:part")
    (hv : memTags.get bldg_id_tag = some v) :
    (redistributeTags elemTags memTags).1.get bldg_id_tag = some v ∧
    (redistributeTags elemTags memTags).2.get bldg_id_tag = none ∧
    (∀ k, ¬((redistributeTags elemTags memTags).2.get k = none) →
      k ∈ (["height", "type", "building:part"] : List String)) ∧
    (∀ ts : List Tags, ts ≠ [] →
      (∀ t ∈ ts, t.get bldg_id_tag = some v ∧ (t.map Prod.fst).Nodup) →
      (ts.foldl (fun acc t => (redistributeTags acc t).1) elemTags).get
        bldg_id_tag = some v) := by
  refine ⟨?_, ?_, ?_, ?_⟩
  · exact redistributeTags_fst_copied hnd hv hp
  · exact redistributeTags_snd_removed hp hs hbp
  · intro k hk
    by_contra hmem
    exact hk (redistributeTags_snd_keys hmem)
  · intro ts hne hall
    exact redistributeFold_fst_join hne hall hp

/-- Witness for the amended C10 at a concrete bucket member. -/
theorem join_tag_redistribution_amended_witness :
    (redistributeTags [] [("bldg", "B1"), ("height", "5")]).1.get "bldg"
      = some "B1" ∧
    (redistributeTags [] [("bldg", "B1"), ("height", "5")]).2.get "bldg"
      = none ∧
    ([[("bldg", "B1")], [("bldg", "B1"), ("x", "2")]].foldl
      (fun acc t => (redistributeTags acc t).1) []).get "bldg" = some "B1" := by
  have h := join_tag_redistribution_amended [] [("bldg", "B1"), ("height", "5")]
    "bldg" "B1" (by decide) (by decide) (by decide) (by decide) (by decide)
  refine ⟨h.1, h.2.1, ?_⟩
  exact h.2.2.2 [[("bldg", "B1")], [("bldg", "B1"), ("x", "2")]]
    (by decide) (by decide)

/-! ### Collection counter invariants -/

theorem nodup_keys_assocSet {κ α : Type} [DecidableEq κ]
    {l : List (κ × α)} (h : (l.map Prod.fst).Nodup) (k : κ) (v : α) :
    ((assocSet l k v).map Prod.fst).Nodup := by
  rw [map_fst_assocSet]
  by_cases hs : (assocGet l k).isSome
  · rwa [if_pos hs]
  · rw [if_neg hs]
    have hk : k ∉ l.map Prod.fst := by
      intro hmem
      obtain ⟨p, hp, hpk⟩ := List.mem_map.mp hmem
      exact ne_of_assocGet_eq_none (Option.not_isSome_iff_eq_none.mp hs) p hp hpk
    simp [List.nodup_append, h, hk]

theorem counter_step_eq_min (a b : Int) : (if b < a then b else a) = min a b := by
  rcases lt_or_ge b a with hlt | hge
  · rw [if_pos hlt, min_eq_right (le_of_lt hlt)]
  · rw [if_neg (not_lt.mpr hge), min_eq_left hge]

theorem nodes_add_preserves_WF {c : Nodes} (h : c.WF) (n : Node) : (c.add n).WF := by
  have h' : c.lowest_id = c.minId := h
  show (c.add n).lowest_id = (c.add n).minId
  unfold Nodes.add Nodes.minId
  dsimp only
  rw [map_fst_assocSet, counter_step_eq_min]
  by_cases hs : (assocGet c.nodes n.osm_id).isSome
  · rw [if_pos hs]
    have hmem : n.osm_id ∈ c.nodes.map Prod.fst := by
      obtain ⟨w, hw⟩ := Option.isSome_iff_exists.mp hs
      exact List.mem_map_of_mem Prod.fst (assocGet_mem hw)
    rw [h']
    exact min_eq_left (keyMin_le_mem hmem)
  · rw [if_neg hs, keyMin_append, h']
    rfl

theorem nodes_fresh_id_not_present {c : Nodes} (h : c.WF) :
    assocGet c.nodes (c.lowest_id - 1) = none := by
  apply assocGet_eq_none
  intro p hp he
  have hle : keyMin (c.nodes.map Prod.fst) ≤ p.1 :=
    keyMin_le_mem (List.mem_map_of_mem Prod.fst hp)
  have h' : c.lowest_id = c.minId := h
  rw [he, h'] at hle
  exact absurd hle (by unfold Nodes.minId; omega)

theorem nodes_add_new_spec {c : Nodes} (h : c.WF) (lat lon : ℚ) :
    (c.add_new lat lon).2.osm_id = c.minId - 1 ∧
    (c.add_new lat lon).1.minId = c.minId - 1 ∧
    (c.add_new lat lon).1.WF ∧
    ((c.add_new lat lon).1.nodes.map Prod.fst)
      = c.nodes.map Prod.fst ++ [c.lowest_id - 1] := by
  have h' : c.lowest_id = c.minId := h
  have hfresh := nodes_fresh_id_not_present h
  have hkeys : ((c.add_new lat lon).1.nodes.map Prod.fst)
      = c.nodes.map Prod.fst ++ [c.lowest_id - 1] := by
    unfold Nodes.add_new Nodes.add
    dsimp only
    rw [map_fst_assocSet, if_neg (by rw [hfresh]; simp)]
  have hmin : (c.add_new lat lon).1.minId = c.minId - 1 := by
    unfold Nodes.minId
    rw [hkeys, keyMin_append]
    have hlt : c.lowest_id - 1 < keyMin (c.nodes.map Prod.fst) := by
      have : keyMin (c.nodes.map Prod.fst) = c.minId := rfl
      omega
    rw [min_eq_right (le_of_lt hlt), h']
    rfl
  have hlow : (c.add_new lat lon).1.lowest_id = c.lowest_id - 1 := by
    unfold Nodes.add_new Nodes.add
    dsimp only
    rw [if_neg (lt_irrefl _)]
  refine ⟨by show c.lowest_id - 1 = c.minId - 1; omega, hmin, ?_, hkeys⟩
  show (c.add_new lat lon).1.lowest_id = (c.add_new lat lon).1.minId
  rw [hlow, hmin, h']

theorem ways_add_preserves_WF {c : Ways} (h : c.WF) (w : Way) : (c.add w).WF := by
  have h' : c.lowest_id = c.minId := h
  show (c.add w).lowest_id = (c.add w).minId
  unfold Ways.add Ways.minId
  dsimp only
  rw [map_fst_assocSet, counter_step_eq_min]
  by_cases hs : (assocGet c.ways w.osm_id).isSome
  · rw [if_pos hs]
    have hmem : w.osm_id ∈ c.ways.map Prod.fst := by
      obtain ⟨u, hu⟩ := Option.isSome_iff_exists.mp hs
      exact List.mem_map_of_mem Prod.fst (assocGet_mem hu)
    rw [h']
    exact min_eq_left (keyMin_le_mem hmem)
  · rw [if_neg hs, keyMin_append, h']
    rfl

theorem ways_fresh_id_not_present {c : Ways} (h : c.WF) :
    assocGet c.ways (c.lowest_id - 1) = none := by
  apply assocGet_eq_none
  intro p hp he
  have hle : keyMin (c.ways.map Prod.fst) ≤ p.1 :=
    keyMin_le_mem (List.mem_map_of_mem Prod.fst hp)
  have h' : c.lowest_id = c.minId := h
  rw [he, h'] at hle
  exact absurd hle (by unfold Ways.minId; omega)

theorem ways_add_new_spec {c : Ways} (h : c.WF) :
    c.add_new.2 = c.minId - 1 ∧
    c.add_new.1.minId = c.minId - 1 ∧
    c.add_new.1.WF ∧
    (c.add_new.1.ways.map Prod.fst) = c.ways.map Prod.fst ++ [c.lowest_id - 1] := by
  have h' : c.lowest_id = c.minId := h
  have hfresh := ways_fresh_id_not_present h
  have hkeys : (c.add_new.1.ways.map Prod.fst)
      = c.ways.map Prod.fst ++ [c.lowest_id - 1] := by
    unfold Ways.add_new Ways.add
    dsimp only
    rw [map_fst_assocSet, if_neg (by rw [hfresh]; simp)]
  have hmin : c.add_new.1.minId = c.minId - 1 := by
    unfold Ways.minId
    rw [hkeys, keyMin_append]
    have hlt : c.lowest_id - 1 < keyMin (c.ways.map Prod.fst) := by
      have : keyMin (c.ways.map Prod.fst) = c.minId := rfl
      omega
    rw [min_eq_right (le_of_lt hlt), h']
    rfl
  have hlow : c.add_new.1.lowest_id = c.lowest_id - 1 := by
    unfold Ways.add_new Ways.add
    dsimp only
    rw [if_neg (lt_irrefl _)]
  refine ⟨by show c.lowest_id - 1 = c.minId - 1; omega, hmin, ?_, hkeys⟩
  show c.add_new.1.lowest_id = c.add_new.1.minId
  rw [hlow, hmin, h']

theorem relations_add_preserves_WF {c : Relations} (h : c.WF) (r : Relation) :
    (c.add r).WF := by
  have h' : c.lowest_id = c.minId := h
  show (c.add r).lowest_id = (c.add r).minId
  unfold Relations.add Relations.minId
  dsimp only
  rw [map_fst_assocSet, counter_step_eq_min]
  by_cases hs : (assocGet c.relations r.osm_id).isSome
  · rw [if_pos hs]
    have hmem : r.osm_id ∈ c.relations.map Prod.fst := by
      obtain ⟨u, hu⟩ := Option.isSome_iff_exists.mp hs
      exact List.mem_map_of_mem Prod.fst (assocGet_mem hu)
    rw [h']
    exact min_eq_left (keyMin_le_mem hmem)
  · rw [if_neg hs, keyMin_append, h']
    rfl

theorem relations_fresh_id_not_present {c : Relations} (h : c.WF) :
    assocGet c.relations (c.lowest_id - 1) = none := by
  apply assocGet_eq_none
  intro p hp he
  have hle : keyMin (c.relations.map Prod.fst) ≤ p.1 :=
    keyMin_le_mem (List.mem_map_of_mem Prod.fst hp)
  have h' : c.lowest_id = c.minId := h
  rw [he, h'] at hle
  exact absurd hle (by unfold Relations.minId; omega)

theorem relations_add_new_spec {c : Relations} (h : c.WF) :
    c.add_new.2 = c.minId - 1 ∧
    c.add_new.1.minId = c.minId - 1 ∧
    c.add_new.1.WF ∧
    (c.add_new.1.relations.map Prod.fst)
      = c.relations.map Prod.fst ++ [c.lowest_id - 1] := by
  have h' : c.lowest_id = c.minId := h
  have hfresh := relations_fresh_id_not_present h
  have hkeys : (c.add_new.1.relations.map Prod.fst)
      = c.relations.map Prod.fst ++ [c.lowest_id - 1] := by
    unfold Relations.add_new Relations.add
    dsimp only
    rw [map_fst_assocSet, if_neg (by rw [hfresh]; simp)]
  have hmin : c.add_new.1.minId = c.minId - 1 := by
    unfold Relations.minId
    rw [hkeys, keyMin_append]
    have hlt : c.lowest_id - 1 < keyMin (c.relations.map Prod.fst) := by
      have : keyMin (c.relations.map Prod.fst) = c.minId := rfl
      omega
    rw [min_eq_right (le_of_lt hlt), h']
    rfl
  have hlow : c.add_new.1.lowest_id = c.lowest_id - 1 := by
    unfold Relations.add_new Relations.add
    dsimp only
    rw [if_neg (lt_irrefl _)]
  refine ⟨by show c.lowest_id - 1 = c.minId - 1; omega, hmin, ?_, hkeys⟩
  show c.add_new.1.lowest_id = c.add_new.1.minId
  rw [hlow, hmin, h']

theorem Relations.add_new_get {c : Relations} (h : c.WF) :
    assocGet c.add_new.1.relations c.add_new.2
      = some ⟨c.lowest_id - 1, [], []⟩ ∧ c.add_new.2 = c.lowest_id - 1 := by
  have hfresh := relations_fresh_id_not_present h
  constructor
  · show assocGet (assocSet c.relations (c.lowest_id - 1) ⟨c.lowest_id - 1, [], []⟩)
      (c.lowest_id - 1) = some ⟨c.lowest_id - 1, [], []⟩
    exact assocGet_assocSet_self _ _ _
  · rfl

theorem Relations.add_new_get_preserved {c : Relations} (h : c.WF)
    {k : Int} {r : Relation} (hk : assocGet c.relations k = some r) :
    assocGet c.add_new.1.relations k = some r := by
  have hfresh := relations_fresh_id_not_present h
  show assocGet (assocSet c.relations (c.lowest_id - 1) ⟨c.lowest_id - 1, [], []⟩)
      k = some r
  unfold assocSet
  rw [if_neg (by rw [hfresh]; simp)]
  exact assocGet_append_some hk

/-- C4 counterexample: a collection holding exactly one node with identifier
5 (the lowest — and only — identifier currently in use).  `add_new` allocates
-2, not 5 - 1 = 4: the counter starts at the sentinel -1 and ignores
non-negative identifiers, so the fresh identifier is not one less than the
lowest identifier currently in use. -/
theorem nodes_add_new_not_lowest_minus_one :
    ((Nodes.empty.add ⟨5, 0, 0, []⟩).nodes.map Prod.fst = [5]) ∧
    ((Nodes.empty.add ⟨5, 0, 0, []⟩).add_new 0 0).2.osm_id = -2 ∧
    ¬(((Nodes.empty.add ⟨5, 0, 0, []⟩).add_new 0 0).2.osm_id = 5 - 1) := by
  decide

/-- C4 (amended): identifiers within a collection are pairwise distinct
(adding preserves key uniqueness); every identifier produced by `add_new` is
strictly negative, strictly below every identifier currently in use, equals
one less than the minimum of -1 and the lowest identifier in use (`minId`),
and successive allocations are strictly decreasing — so synthetic
identifiers collide neither with pre-existing non-negative identifiers nor
with each other.  Shown for nodes, ways and relations. -/
theorem fresh_id_allocation_amended
    (nc : Nodes) (wc : Ways) (rc : Relations) (lat lon : ℚ)
    (hn : nc.WF) (hw : wc.WF) (hr : rc.WF) :
    ((nc.add_new lat lon).2.osm_id = nc.minId - 1 ∧
     (nc.add_new lat lon).2.osm_id < 0 ∧
     (∀ p ∈ nc.nodes, (nc.add_new lat lon).2.osm_id < p.1) ∧
     ((nc.add_new lat lon).1.add_new lat lon).2.osm_id
       < (nc.add_new lat lon).2.osm_id ∧
     ((nc.nodes.map Prod.fst).Nodup →
       ((nc.add_new lat lon).1.nodes.map Prod.fst).Nodup)) ∧
    (wc.add_new.2 = wc.minId - 1 ∧
     wc.add_new.2 < 0 ∧
     (∀ p ∈ wc.ways, wc.add_new.2 < p.1) ∧
     wc.add_new.1.add_new.2 < wc.add_new.2 ∧
     ((wc.ways.map Prod.fst).Nodup →
       (wc.add_new.1.ways.map Prod.fst).Nodup)) ∧
    (rc.add_new.2 = rc.minId - 1 ∧
     rc.add_new.2 < 0 ∧
     (∀ p ∈ rc.relations, rc.add_new.2 < p.1) ∧
     rc.add_new.1.add_new.2 < rc.add_new.2 ∧
     ((rc.relations.map Prod.fst).Nodup →
       (rc.add_new.1.relations.map Prod.fst).Nodup)) := by
  obtain ⟨hid, hmin, hwf, hkeys⟩ := nodes_add_new_spec hn lat lon
  obtain ⟨hidw, hminw, hwfw, hkeysw⟩ := ways_add_new_spec hw
  obtain ⟨hidr, hminr, hwfr, hkeysr⟩ := relations_add_new_spec hr
  refine ⟨⟨hid, ?_, ?_, ?_, ?_⟩, ⟨hidw, ?_, ?_, ?_, ?_⟩, ⟨hidr, ?_, ?_, ?_, ?_⟩⟩
  · have := keyMin_le_neg_one (nc.nodes.map Prod.fst)
    show (nc.add_new lat lon).2.osm_id < 0
    rw [hid]
    unfold Nodes.minId
    omega
  · intro p hp
    have hle : nc.minId ≤ p.1 := keyMin_le_mem (List.mem_map_of_mem Prod.fst hp)
    rw [hid]
    omega
  · obtain ⟨hid2, _, _, _⟩ := nodes_add_new_spec hwf lat lon
    rw [hid2, hmin, hid]
    omega
  · intro hnd
    have h' : nc.lowest_id = nc.minId := hn
    rw [hkeys]
    have hfr : nc.lowest_id - 1 ∉ nc.nodes.map Prod.fst := by
      intro hmem
      have := keyMin_le_mem hmem
      unfold Nodes.minId at h'
      omega
    simp [List.nodup_append, hnd, hfr]
  · have := keyMin_le_neg_one (wc.ways.map Prod.fst)
    rw [hidw]
    unfold Ways.minId
    omega
  · intro p hp
    have hle : wc.minId ≤ p.1 := keyMin_le_mem (List.mem_map_of_mem Prod.fst hp)
    rw [hidw]
    omega
  · obtain ⟨hid2, _, _, _⟩ := ways_add_new_spec hwfw
    rw [hid2, hminw, hidw]
    omega
  · intro hnd
    have h' : wc.lowest_id = wc.minId := hw
    rw [hkeysw]
    have hfr : wc.lowest_id - 1 ∉ wc.ways.map Prod.fst := by
      intro hmem
      have := keyMin_le_mem hmem
      unfold Ways.minId at h'
      omega
    simp [List.nodup_append, hnd, hfr]
  · have := keyMin_le_neg_one (rc.relations.map Prod.fst)
    rw [hidr]
    unfold Relations.minId
    omega
  · intro p hp
    have hle : rc.minId ≤ p.1 := keyMin_le_mem (List.mem_map_of_mem Prod.fst hp)
    rw [hidr]
    omega
  · obtain ⟨hid2, _, _, _⟩ := relations_add_new_spec hwfr
    rw [hid2, hminr, hidr]
    omega
  · intro hnd
    have h' : rc.lowest_id = rc.minId := hr
    rw [hkeysr]
    have hfr : rc.lowest_id - 1 ∉ rc.relations.map Prod.fst := by
      intro hmem
      have := keyMin_le_mem hmem
      unfold Relations.minId at h'
      omega
    simp [List.nodup_append, hnd, hfr]

/-- Witness for the amended C4 on concrete collections. -/
theorem fresh_id_allocation_amended_witness :
    (Nodes.empty.add ⟨5, 0, 0, []⟩).WF ∧
    ((Nodes.empty.add ⟨5, 0, 0, []⟩).add_new 0 0).2.osm_id
      = (Nodes.empty.add ⟨5, 0, 0, []⟩).minId - 1 ∧
    ((Nodes.empty.add ⟨5, 0, 0, []⟩).add_new 0 0).2.osm_id < 0 ∧
    Ways.empty.add_new.2 = Ways.empty.minId - 1 ∧
    Relations.empty.add_new.2 = Relations.empty.minId - 1 := by
  have h := fresh_id_allocation_amended (Nodes.empty.add ⟨5, 0, 0, []⟩)
    Ways.empty Relations.empty 0 0
    (by unfold Nodes.WF Nodes.minId; decide)
    (by unfold Ways.WF Ways.minId; decide)
    (by unfold Relations.WF Relations.minId; decide)
  exact ⟨by unfold Nodes.WF Nodes.minId; decide, h.1.1, h.1.2.1, h.2.1.1, h.2.2.1⟩

/-- C5: exact-coordinate point deduplication.  Two successive
`add_new_if_not_exist` requests at the same rational (lat, lon) return the
same node; a fresh node is allocated exactly when no node is indexed at
those exact coordinates; matching is the index lookup at the exact pair,
never a proximity test. -/
theorem point_dedup_exact (c : Nodes) (lat lon : ℚ) :
    ((c.add_new_if_not_exist lat lon).1.add_new_if_not_exist lat lon).2
      = (c.add_new_if_not_exist lat lon).2 ∧
    ((∃ n, assocGet c.nodes_by_lat_lon (lat, lon) = some n ∧
       c.add_new_if_not_exist lat lon = (c, n)) ∨
     (assocGet c.nodes_by_lat_lon (lat, lon) = none ∧
       c.add_new_if_not_exist lat lon = c.add_new lat lon)) := by
  cases hidx : assocGet c.nodes_by_lat_lon (lat, lon) with
  | some n =>
    have hfirst : c.add_new_if_not_exist lat lon = (c, n) := by
      unfold Nodes.add_new_if_not_exist
      rw [hidx]
    constructor
    · rw [hfirst]
      show (c.add_new_if_not_exist lat lon).2 = n
      rw [hfirst]
    · exact Or.inl ⟨n, rfl, hfirst⟩
  | none =>
    have hfirst : c.add_new_if_not_exist lat lon = c.add_new lat lon := by
      unfold Nodes.add_new_if_not_exist
      rw [hidx]
    have hsecond : assocGet (c.add_new lat lon).1.nodes_by_lat_lon (lat, lon)
        = some (c.add_new lat lon).2 := by
      show assocGet (assocSet c.nodes_by_lat_lon (lat, lon)
        ⟨c.lowest_id - 1, lat, lon, []⟩) (lat, lon) = _
      exact assocGet_assocSet_self _ _ _
    constructor
    · rw [hfirst]
      unfold Nodes.add_new_if_not_exist
      rw [hsecond]
    · exact Or.inr ⟨rfl, hfirst⟩

/-- C9 counterexample: ingesting two nodes sharing identifier 7 raises
nothing; the collection ends with a single entry holding the second node —
the second element silently replaces the first, there is no
DuplicateIdentifierError anywhere in the code. -/
theorem duplicate_identifier_silent_replace :
    (((Nodes.empty.add ⟨7, 0, 0, []⟩).add ⟨7, 1, 1, []⟩).nodes.map Prod.fst
      = [7]) ∧
    assocGet ((Nodes.empty.add ⟨7, 0, 0, []⟩).add ⟨7, 1, 1, []⟩).nodes 7
      = some ⟨7, 1, 1, []⟩ ∧
    ¬(assocGet ((Nodes.empty.add ⟨7, 0, 0, []⟩).add ⟨7, 1, 1, []⟩).nodes 7
      = some ⟨7, 0, 0, []⟩) := by decide

/-- C9 (amended): `add` is total and last-write-wins — adding an element
whose identifier is already present replaces the stored element without any
error, for nodes, ways and relations alike. -/
theorem add_last_write_wins (nc : Nodes) (wc : Ways) (rc : Relations)
    (n : Node) (w : Way) (r : Relation) :
    assocGet (nc.add n).nodes n.osm_id = some n ∧
    assocGet (wc.add w).ways w.osm_id = some w ∧
    assocGet (rc.add r).relations r.osm_id = some r := by
  refine ⟨?_, ?_, ?_⟩
  · exact assocGet_assocSet_self nc.nodes n.osm_id n
  · exact assocGet_assocSet_self wc.ways w.osm_id w
  · exact assocGet_assocSet_self rc.relations r.osm_id r

theorem closeRing_closed {pts : List (ℚ × ℚ)} (h : pts ≠ []) :
    (closeRing pts).head? = (closeRing pts).getLast? := by
  match pts, h with
  | p :: rest, _ =>
    show (if (p :: rest).getLast? = some p then p :: rest
          else p :: rest ++ [p]).head?
        = (if (p :: rest).getLast? = some p then p :: rest
          else p :: rest ++ [p]).getLast?
    by_cases hl : (p :: rest).getLast? = some p
    · rw [if_pos hl, hl]
      rfl
    · rw [if_neg hl, List.getLast?_concat]
      rfl

/-- C8 counterexample: a way whose first node is at (lat 0, lon 0) and last
node at (lat 1, lon 1) — an unclosed ring — is converted by
`way_to_polygon` into a polygon without any error: the geometry library
silently closes the ring by appending the first coordinate. -/
theorem way_to_polygon_unclosed_silent :
    (let w : Way := ⟨1, [], [⟨10, 0, 0, []⟩, ⟨11, 0, 1, []⟩, ⟨12, 1, 1, []⟩]⟩
     (w.nodes.map (fun n => (n.lon, n.lat))).head?
        ≠ (w.nodes.map (fun n => (n.lon, n.lat))).getLast? ∧
     way_to_polygon w = ⟨[(0, 0), (1, 0), (1, 1), (0, 0)], []⟩) := by decide

/-- C8 (amended): `way_to_polygon` performs no closed-ring check and never
fails; for every way with at least one node — including ways whose first and
last coordinates differ — it produces a polygon with no interiors whose
exterior ring is closed (first equals last coordinate), the unclosed case
being closed implicitly by the library. -/
theorem way_to_polygon_closes_amended (w : Way) (h : w.nodes ≠ []) :
    (way_to_polygon w).interiors = [] ∧
    (way_to_polygon w).exterior.head? = (way_to_polygon w).exterior.getLast? := by
  refine ⟨rfl, ?_⟩
  show (closeRing (w.nodes.map (fun n => (n.lon, n.lat)))).head?
      = (closeRing (w.nodes.map (fun n => (n.lon, n.lat)))).getLast?
  apply closeRing_closed
  simpa using h

/-- Witness for the amended C8 on a concrete two-node (unclosed) way. -/
theorem way_to_polygon_closes_amended_witness :
    (⟨3, [], [⟨20, 0, 0, []⟩, ⟨21, 2, 3, []⟩]⟩ : Way).nodes ≠ [] ∧
    (way_to_polygon ⟨3, [], [⟨20, 0, 0, []⟩, ⟨21, 2, 3, []⟩]⟩).interiors = [] ∧
    (way_to_polygon ⟨3, [], [⟨20, 0, 0, []⟩, ⟨21, 2, 3, []⟩]⟩).exterior.head?
      = (way_to_polygon ⟨3, [], [⟨20, 0, 0, []⟩, ⟨21, 2, 3, []⟩]⟩).exterior.getLast? := by
  have h := way_to_polygon_closes_amended
    ⟨3, [], [⟨20, 0, 0, []⟩, ⟨21, 2, 3, []⟩]⟩ (by decide)
  exact ⟨by decide, h.1, h.2⟩

/-! ### Category-tag normalization lemmas -/

theorem assocGet_map_snd {κ α β : Type} [DecidableEq κ]
    (l : List (κ × α)) (f : α → β) (k : κ) :
    assocGet (l.map (fun p => (p.1, f p.2))) k = (assocGet l k).map f := by
  induction l with
  | nil => rfl
  | cons p l ih =>
    by_cases hp : p.1 = k
    · simp [assocGet, hp]
    · simp [assocGet, hp, ih]

theorem normalizeTags_both {t : Tags} (hb : t.has "building" = true)
    (hp : t.has "building:part" = true) :
    (normalizeTags t).get "building" = t.get "building" ∧
    (normalizeTags t).has "building:part" = false ∧
    (∀ k, k ≠ "building:part" → (normalizeTags t).get k = t.get k) := by
  unfold normalizeTags
  rw [if_pos (by rw [hb, hp]; rfl)]
  refine ⟨Tags.get_del_ne t "building:part" "building" (by decide), ?_, ?_⟩
  · have hd : (t.del "building:part").get "building:part" = none :=
      Tags.get_del_self t "building:part"
    unfold Tags.has
    unfold Tags.get at hd
    rw [hd]
    rfl
  · intro k hk
    exact Tags.get_del_ne t "building:part" k hk

theorem normalizeTags_only_part {t : Tags} {v : String}
    (hb : t.has "building" = false) (hp : t.get "building:part" = some v) :
    (normalizeTags t).get "building" = some v.toLower ∧
    (normalizeTags t).has "building:part" = false ∧
    (∀ k, k ≠ "building" → k ≠ "building:part" →
      (normalizeTags t).get k = t.get k) := by
  have hps : t.has "building:part" = true := Tags.has_of_get_eq_some hp
  unfold normalizeTags
  rw [if_neg (by rw [hb]; simp), if_pos (by rw [hb, hps]; rfl), hp]
  refine ⟨?_, ?_, ?_⟩
  · rw [Tags.get_del_ne _ "building:part" "building" (by decide)]
    exact Tags.get_set_self t "building" v.toLower
  · have hd : ((t.set "building" v.toLower).del "building:part").get
        "building:part" = none := Tags.get_del_self _ "building:part"
    unfold Tags.has
    unfold Tags.get at hd
    rw [hd]
    rfl
  · intro k hk1 hk2
    rw [Tags.get_del_ne _ "building:part" k hk2]
    exact Tags.get_set_ne t "building" k v.toLower hk1

theorem normalizeTags_no_part {t : Tags} (hp : t.has "building:part" = false) :
    normalizeTags t = t := by
  unfold normalizeTags
  rw [if_neg (by rw [hp]; simp), if_neg (by rw [hp]; simp)]

/-- C6: the preprocessing pass rewrites every way's and every relation's
tags through the category normalization, which (a) drops `building:part`
and keeps `building` unchanged when both are present, (b) promotes a lone
`building:part` to a lower-cased `building` and drops `building:part`,
and (c) leaves elements without `building:part` (in particular those with
only a `building` tag, or neither) untouched; all other keys are
unaffected. -/
theorem category_tag_normalization (st : MBR) :
    (∀ i w, assocGet st.ways.ways i = some w →
      assocGet (st.preprocess).ways.ways i
        = some { w with tags := normalizeTags w.tags }) ∧
    (∀ i r, assocGet st.relations.relations i = some r →
      assocGet (st.preprocess).relations.relations i
        = some { r with tags := normalizeTags r.tags }) ∧
    (∀ t : Tags,
      (t.has "building" = true → t.has "building:part" = true →
        (normalizeTags t).get "building" = t.get "building" ∧
        (normalizeTags t).has "building:part" = false ∧
        (∀ k, k ≠ "building:part" → (normalizeTags t).get k = t.get k)) ∧
      (t.has "building" = false → ∀ v, t.get "building:part" = some v →
        (normalizeTags t).get "building" = some v.toLower ∧
        (normalizeTags t).has "building:part" = false ∧
        (∀ k, k ≠ "building" → k ≠ "building:part" →
          (normalizeTags t).get k = t.get k)) ∧
      (t.has "building:part" = false → normalizeTags t = t)) := by
  refine ⟨?_, ?_, ?_⟩
  · intro i w hw
    show assocGet (st.ways.ways.map (fun p => (p.1, normalizeWay p.2))) i = _
    rw [assocGet_map_snd st.ways.ways normalizeWay i, hw]
    rfl
  · intro i r hr
    show assocGet (st.relations.relations.map
      (fun p => (p.1, normalizeRelation p.2))) i = _
    rw [assocGet_map_snd st.relations.relations normalizeRelation i, hr]
    rfl
  · intro t
    refine ⟨fun hb hp => normalizeTags_both hb hp,
            fun hb v hp => normalizeTags_only_part hb hp,
            fun hp => normalizeTags_no_part hp⟩

/-- Witness for C6: a concrete state holding one way with a lone
`building:part` tag (promoted, lower-cased) and one relation carrying both
category tags (part level dropped). -/
theorem category_tag_normalization_witness :
    (assocGet (MBR.preprocess ⟨[], Nodes.empty,
        ⟨[(4, ⟨4, [("building:part", "Yes")], []⟩)], -1⟩,
        ⟨[(6, ⟨6, [("building", "a"), ("building:part", "b")], []⟩)], -1⟩⟩).ways.ways 4
      = some ⟨4, [("building", "Yes".toLower)], []⟩) ∧
    (assocGet (MBR.preprocess ⟨[], Nodes.empty,
        ⟨[(4, ⟨4, [("building:part", "Yes")], []⟩)], -1⟩,
        ⟨[(6, ⟨6, [("building", "a"), ("building:part", "b")], []⟩)], -1⟩⟩).relations.relations 6
      = some ⟨6, [("building", "a")], []⟩) ∧
    (normalizeTags [("building:part", "Yes")]).get "building"
      = some "Yes".toLower := by
  have h := category_tag_normalization ⟨[], Nodes.empty,
    ⟨[(4, ⟨4, [("building:part", "Yes")], []⟩)], -1⟩,
    ⟨[(6, ⟨6, [("building", "a"), ("building:part", "b")], []⟩)], -1⟩⟩
  refine ⟨?_, ?_, ?_⟩
  · rw [h.1 4 ⟨4, [("building:part", "Yes")], []⟩ (by decide)]
    rfl
  · rw [h.2.1 6 ⟨6, [("building", "a"), ("building:part", "b")], []⟩ (by decide)]
    rfl
  · exact ((h.2.2 [("building:part", "Yes")]).2.1 (by decide) "Yes" (by decide)).1

/-! ### Singleton buckets -/

theorem closeBucketStep_skip {union : List Polygon → UnionResult}
    {assembleRings : List (List (ℚ × ℚ)) → List Polygon} {st : MBR}
    {bucket : String × List ERef} (h : bucket.2.length ≤ 1) :
    MBR.closeBucketStep union assembleRings st bucket = st := by
  unfold MBR.closeBucketStep
  rw [if_neg (by omega)]

theorem closeFold_all_small {union : List Polygon → UnionResult}
    {assembleRings : List (List (ℚ × ℚ)) → List Polygon}
    {bs : List (String × List ERef)} (h : ∀ b ∈ bs, b.2.length ≤ 1) (s : MBR) :
    bs.foldl (MBR.closeBucketStep union assembleRings) s = s := by
  induction bs generalizing s with
  | nil => rfl
  | cons b bs ih =>
    simp only [List.foldl_cons]
    rw [closeBucketStep_skip (h b (List.mem_cons_self b bs))]
    exact ih (fun b' hb' => h b' (List.mem_cons_of_mem b hb')) s

/-- C3: a bucket with exactly one member is skipped entirely — the bucket
step is the identity on the state, so no relation is synthesized and the
member is untouched; consequently, when every bucket holds at most one
member, the whole `close` pass equals the category-normalization
preprocessing alone (the only modification such members ever receive). -/
theorem single_part_bucket_invariance (union : List Polygon → UnionResult)
    (assembleRings : List (List (ℚ × ℚ)) → List Polygon)
    (st : MBR) (v : String) (m : ERef)
    (hall : ∀ b ∈ st.bldgs, b.2.length ≤ 1) :
    MBR.closeBucketStep union assembleRings st (v, [m]) = st ∧
    MBR.closeModel union assembleRings st = st.preprocess := by
  constructor
  · exact closeBucketStep_skip (by simp)
  · show st.preprocess.bldgs.foldl
      (MBR.closeBucketStep union assembleRings) st.preprocess = st.preprocess
    have hb : st.preprocess.bldgs = st.bldgs := rfl
    rw [hb]
    exact closeFold_all_small hall st.preprocess

/-- Witness for C3 on a concrete one-way, one-singleton-bucket state. -/
theorem single_part_bucket_invariance_witness :
    MBR.closeBucketStep (fun _ => UnionResult.multi []) (fun _ => [])
      ⟨[("B1", [ERef.way 1])], Nodes.empty,
       ⟨[(1, ⟨1, [("bldg", "B1"), ("building", "yes")], []⟩)], -1⟩,
       Relations.empty⟩ ("B1", [ERef.way 1])
      = ⟨[("B1", [ERef.way 1])], Nodes.empty,
         ⟨[(1, ⟨1, [("bldg", "B1"), ("building", "yes")], []⟩)], -1⟩,
         Relations.empty⟩ ∧
    MBR.closeModel (fun _ => UnionResult.multi []) (fun _ => [])
      ⟨[("B1", [ERef.way 1])], Nodes.empty,
       ⟨[(1, ⟨1, [("bldg", "B1"), ("building", "yes")], []⟩)], -1⟩,
       Relations.empty⟩
      = (⟨[("B1", [ERef.way 1])], Nodes.empty,
          ⟨[(1, ⟨1, [("bldg", "B1"), ("building", "yes")], []⟩)], -1⟩,
          Relations.empty⟩ : MBR).preprocess :=
  single_part_bucket_invariance (fun _ => UnionResult.multi []) (fun _ => [])
    ⟨[("B1", [ERef.way 1])], Nodes.empty,
     ⟨[(1, ⟨1, [("bldg", "B1"), ("building", "yes")], []⟩)], -1⟩,
     Relations.empty⟩ "B1" (ERef.way 1) (by decide)

/-! ### State effects of the polygon encoders -/

theorem Nodes.add_IndexWF {c : Nodes} (h : c.IndexWF) (n : Node) :
    (c.add n).IndexWF := by
  intro p hp
  have hp' : p ∈ assocSet c.nodes_by_lat_lon (n.lat, n.lon) n := hp
  rcases mem_assocSet hp' with h1 | h1
  · exact h p h1
  · rw [h1]
    exact ⟨rfl, rfl⟩

theorem add_new_if_not_exist_spec {c : Nodes} (h : c.IndexWF) (lat lon : ℚ) :
    (c.add_new_if_not_exist lat lon).2.lat = lat ∧
    (c.add_new_if_not_exist lat lon).2.lon = lon ∧
    (c.add_new_if_not_exist lat lon).1.IndexWF := by
  unfold Nodes.add_new_if_not_exist
  cases hidx : assocGet c.nodes_by_lat_lon (lat, lon) with
  | some n =>
    have hm := h _ (assocGet_mem hidx)
    exact ⟨hm.1, hm.2, h⟩
  | none =>
    refine ⟨rfl, rfl, ?_⟩
    exact Nodes.add_IndexWF (c := { c with lowest_id := c.lowest_id - 1 }) h _

theorem pwFold_spec (wid : Int) :
    ∀ (pts : List (ℚ × ℚ)) (s : MBR) (tg : Tags) (acc : List Node),
    s.nodes.IndexWF → assocGet s.ways.ways wid = some ⟨wid, tg, acc⟩ →
    (pts.foldl (MBR.pwStep wid) s).relations = s.relations ∧
    (pts.foldl (MBR.pwStep wid) s).nodes.IndexWF ∧
    ∃ ns, assocGet (pts.foldl (MBR.pwStep wid) s).ways.ways wid
        = some ⟨wid, tg, acc ++ ns⟩ ∧
      ns.map (fun n => (n.lon, n.lat)) = pts := by
  intro pts
  induction pts with
  | nil =>
    intro s tg acc h1 h2
    exact ⟨rfl, h1, [], by simpa using h2, rfl⟩
  | cons point pts ih =>
    intro s tg acc h1 h2
    simp only [List.foldl_cons]
    obtain ⟨hlat, hlon, hidx'⟩ := add_new_if_not_exist_spec h1 point.2 point.1
    have hget' : assocGet (s.pwStep wid point).ways.ways wid
        = some ⟨wid, tg,
            acc ++ [(s.nodes.add_new_if_not_exist point.2 point.1).2]⟩ := by
      show assocGet (assocModify s.ways.ways wid
        (fun w => { w with
          nodes := w.nodes ++ [(s.nodes.add_new_if_not_exist point.2 point.1).2] }))
        wid = _
      rw [assocGet_assocModify_self, h2]
      rfl
    obtain ⟨hr, hi, ns, hget, hmap⟩ := ih (s.pwStep wid point) tg _ hidx' hget'
    refine ⟨by rw [hr]; rfl, hi,
      (s.nodes.add_new_if_not_exist point.2 point.1).2 :: ns, ?_, ?_⟩
    · rw [hget]
      simp
    · simp only [List.map_cons, hmap, hlat, hlon]

theorem points_to_way_spec (st : MBR) (pts : List (ℚ × ℚ))
    (hidx : st.nodes.IndexWF) :
    (st.points_to_way pts).2 = st.ways.lowest_id - 1 ∧
    (st.points_to_way pts).1.relations = st.relations ∧
    (st.points_to_way pts).1.nodes.IndexWF ∧
    ∃ ns : List Node, assocGet (st.points_to_way pts).1.ways.ways
        (st.ways.lowest_id - 1) = some ⟨st.ways.lowest_id - 1, [], ns⟩ ∧
      ns.map (fun n => (n.lon, n.lat)) = pts := by
  have hget0 : assocGet ({ st with ways := st.ways.add_new.1 } : MBR).ways.ways
      (st.ways.lowest_id - 1)
      = some ⟨st.ways.lowest_id - 1, [], []⟩ := by
    show assocGet (assocSet st.ways.ways (st.ways.lowest_id - 1)
      ⟨st.ways.lowest_id - 1, [], []⟩) (st.ways.lowest_id - 1) = _
    exact assocGet_assocSet_self _ _ _
  obtain ⟨hr, hi, ns, hget, hmap⟩ := pwFold_spec (st.ways.lowest_id - 1) pts
    { st with ways := st.ways.add_new.1 } [] [] hidx hget0
  exact ⟨rfl, hr, hi, ns, by simpa using hget, hmap⟩

theorem relAddMember_get_self (st : MBR) (rid : Int) (e : ERef) (role : String) :
    assocGet (st.relAddMember rid e role).relations.relations rid
      = (assocGet st.relations.relations rid).map
          (fun r => { r with members := r.members ++ [(e, role)] }) := by
  show assocGet (assocModify st.relations.relations rid
    (fun r => { r with members := r.members ++ [(e, role)] })) rid = _
  exact assocGet_assocModify_self _ _ _

theorem relAddMember_get_ne (st : MBR) (rid : Int) (e : ERef) (role : String)
    (k : Int) (hk : k ≠ rid) :
    assocGet (st.relAddMember rid e role).relations.relations k
      = assocGet st.relations.relations k := by
  show assocGet (assocModify st.relations.relations rid
    (fun r => { r with members := r.members ++ [(e, role)] })) k = _
  exact assocGet_assocModify_ne _ _ _ _ hk

theorem relAddTag_get_self (st : MBR) (rid : Int) (kt v : String) :
    assocGet (st.relAddTag rid kt v).relations.relations rid
      = (assocGet st.relations.relations rid).map
          (fun r => { r with tags := r.tags.set kt v }) := by
  show assocGet (assocModify st.relations.relations rid
    (fun r => { r with tags := r.tags.set kt v })) rid = _
  exact assocGet_assocModify_self _ _ _

theorem relAddTag_get_ne (st : MBR) (rid : Int) (kt v : String)
    (k : Int) (hk : k ≠ rid) :
    assocGet (st.relAddTag rid kt v).relations.relations k
      = assocGet st.relations.relations k := by
  show assocGet (assocModify st.relations.relations rid
    (fun r => { r with tags := r.tags.set kt v })) k = _
  exact assocGet_assocModify_ne _ _ _ _ hk

theorem apFold_spec (rid : Int) :
    ∀ (rings : List (List (ℚ × ℚ))) (s : MBR), s.nodes.IndexWF →
    (rings.foldl (MBR.apStep rid) s).nodes.IndexWF ∧
    (∀ k, k ≠ rid →
      assocGet (rings.foldl (MBR.apStep rid) s).relations.relations k
        = assocGet s.relations.relations k) ∧
    (∀ r, assocGet s.relations.relations rid = some r →
      ∃ ms, assocGet (rings.foldl (MBR.apStep rid) s).relations.relations rid
          = some ⟨r.osm_id, r.tags, r.members ++ ms⟩ ∧
        ∀ me ∈ ms, ∃ i, me.1 = ERef.way i) := by
  intro rings
  induction rings with
  | nil =>
    intro s h
    refine ⟨h, fun k _ => rfl, fun r hr => ⟨[], by simpa using hr, by simp⟩⟩
  | cons ring rings ih =>
    intro s h
    simp only [List.foldl_cons]
    obtain ⟨_, hrel, hidx', _⟩ := points_to_way_spec s ring h
    have hstep_idx : (MBR.apStep rid s ring).nodes.IndexWF := hidx'
    obtain ⟨hi, hne, hrid⟩ := ih (MBR.apStep rid s ring) hstep_idx
    refine ⟨hi, ?_, ?_⟩
    · intro k hk
      rw [hne k hk]
      show assocGet ((s.points_to_way ring).1.relAddMember rid
        (ERef.way (s.points_to_way ring).2) "inner").relations.relations k = _
      rw [relAddMember_get_ne _ _ _ _ k hk, hrel]
    · intro r hr
      have hstep : assocGet (MBR.apStep rid s ring).relations.relations rid
          = some ⟨r.osm_id, r.tags,
              r.members ++ [(ERef.way (s.points_to_way ring).2, "inner")]⟩ := by
        show assocGet ((s.points_to_way ring).1.relAddMember rid
          (ERef.way (s.points_to_way ring).2) "inner").relations.relations rid = _
        rw [relAddMember_get_self, hrel, hr]
        rfl
      obtain ⟨ms, hget, hms⟩ := hrid _ hstep
      refine ⟨[(ERef.way (s.points_to_way ring).2, "inner")] ++ ms, ?_, ?_⟩
      · rw [hget]
        simp
      · intro me hme
        rcases List.mem_append.mp hme with h1 | h1
        · rw [List.mem_singleton.mp h1]
          exact ⟨(s.points_to_way ring).2, rfl⟩
        · exact hms me h1

theorem add_polygon_spec (st : MBR) (p : Polygon) (rid : Int)
    (hidx : st.nodes.IndexWF) :
    (st.add_polygon_to_relation p rid).nodes.IndexWF ∧
    (∀ k, k ≠ rid →
      assocGet (st.add_polygon_to_relation p rid).relations.relations k
        = assocGet st.relations.relations k) ∧
    (∀ r, assocGet st.relations.relations rid = some r →
      ∃ ms, assocGet (st.add_polygon_to_relation p rid).relations.relations rid
          = some ⟨r.osm_id, r.tags, r.members ++ ms⟩ ∧
        ∀ me ∈ ms, ∃ i, me.1 = ERef.way i) := by
  obtain ⟨_, hrel, hidx', _⟩ := points_to_way_spec st p.exterior hidx
  have hidx2 : ((st.points_to_way p.exterior).1.relAddMember rid
      (ERef.way (st.points_to_way p.exterior).2) "outer").nodes.IndexWF := hidx'
  obtain ⟨hi, hne, hrid⟩ := apFold_spec rid p.interiors _ hidx2
  refine ⟨hi, ?_, ?_⟩
  · intro k hk
    show assocGet (p.interiors.foldl (MBR.apStep rid) _).relations.relations k = _
    rw [hne k hk, relAddMember_get_ne _ _ _ _ k hk, hrel]
  · intro r hr
    have hstep : assocGet ((st.points_to_way p.exterior).1.relAddMember rid
        (ERef.way (st.points_to_way p.exterior).2) "outer").relations.relations rid
        = some ⟨r.osm_id, r.tags,
            r.members ++ [(ERef.way (st.points_to_way p.exterior).2, "outer")]⟩ := by
      rw [relAddMember_get_self, hrel, hr]
      rfl
    obtain ⟨ms, hget, hms⟩ := hrid _ hstep
    refine ⟨[(ERef.way (st.points_to_way p.exterior).2, "outer")] ++ ms, ?_, ?_⟩
    · show assocGet (p.interiors.foldl (MBR.apStep rid) _).relations.relations rid = _
      rw [hget]
      simp
    · intro me hme
      rcases List.mem_append.mp hme with h1 | h1
      · rw [List.mem_singleton.mp h1]
        exact ⟨(st.points_to_way p.exterior).2, rfl⟩
      · exact hms me h1

theorem addPolyFold_spec (rid : Int) :
    ∀ (ps : List Polygon) (s : MBR), s.nodes.IndexWF →
    (ps.foldl (fun s2 p => s2.add_polygon_to_relation p rid) s).nodes.IndexWF ∧
    (∀ k, k ≠ rid →
      assocGet (ps.foldl (fun s2 p => s2.add_polygon_to_relation p rid)
          s).relations.relations k
        = assocGet s.relations.relations k) ∧
    (∀ r, assocGet s.relations.relations rid = some r →
      ∃ ms, assocGet (ps.foldl (fun s2 p => s2.add_polygon_to_relation p rid)
            s).relations.relations rid
          = some ⟨r.osm_id, r.tags, r.members ++ ms⟩ ∧
        ∀ me ∈ ms, ∃ i, me.1 = ERef.way i) := by
  intro ps
  induction ps with
  | nil =>
    intro s h
    refine ⟨h, fun k _ => rfl, fun r hr => ⟨[], by simpa using hr, by simp⟩⟩
  | cons p ps ih =>
    intro s h
    simp only [List.foldl_cons]
    obtain ⟨hidx', hne', hrid'⟩ := add_polygon_spec s p rid h
    obtain ⟨hi, hne, hrid⟩ := ih (s.add_polygon_to_relation p rid) hidx'
    refine ⟨hi, ?_, ?_⟩
    · intro k hk
      rw [hne k hk, hne' k hk]
    · intro r hr
      obtain ⟨ms1, hget1, hms1⟩ := hrid' r hr
      obtain ⟨ms2, hget2, hms2⟩ := hrid _ hget1
      refine ⟨ms1 ++ ms2, ?_, ?_⟩
      · rw [hget2]
        simp
      · intro me hme
        rcases List.mem_append.mp hme with h1 | h1
        · exact hms1 me h1
        · exact hms2 me h1

theorem polygon_with_interior_spec (st : MBR) (p : Polygon)
    (hidx : st.nodes.IndexWF) :
    (st.polygon_with_interior_to_relation p).2 = st.relations.lowest_id - 1 ∧
    (st.polygon_with_interior_to_relation p).1.nodes.IndexWF ∧
    (∀ k, k ≠ st.relations.lowest_id - 1 →
      assocGet (st.polygon_with_interior_to_relation p).1.relations.relations k
        = assocGet st.relations.relations k) ∧
    ∃ ms, assocGet
        (st.polygon_with_interior_to_relation p).1.relations.relations
        (st.relations.lowest_id - 1)
        = some ⟨st.relations.lowest_id - 1, [("type", "multipolygon")], ms⟩ ∧
      ∀ me ∈ ms, ∃ i, me.1 = ERef.way i := by
  have hget1 : assocGet ({ st with relations := st.relations.add_new.1 }
      : MBR).relations.relations (st.relations.lowest_id - 1)
      = some ⟨st.relations.lowest_id - 1, [], []⟩ := by
    show assocGet (assocSet st.relations.relations (st.relations.lowest_id - 1)
      ⟨st.relations.lowest_id - 1, [], []⟩) (st.relations.lowest_id - 1) = _
    exact assocGet_assocSet_self _ _ _
  have hne1 : ∀ k, k ≠ st.relations.lowest_id - 1 →
      assocGet ({ st with relations := st.relations.add_new.1 }
        : MBR).relations.relations k = assocGet st.relations.relations k := by
    intro k hk
    show assocGet (assocSet st.relations.relations (st.relations.lowest_id - 1)
      ⟨st.relations.lowest_id - 1, [], []⟩) k = _
    exact assocGet_assocSet_ne _ _ _ _ hk
  have hget2 : assocGet (({ st with relations := st.relations.add_new.1 }
      : MBR).relAddTag (st.relations.lowest_id - 1)
        "type" "multipolygon").relations.relations (st.relations.lowest_id - 1)
      = some ⟨st.relations.lowest_id - 1, [("type", "multipolygon")], []⟩ := by
    rw [relAddTag_get_self, hget1]
    rfl
  obtain ⟨hidx3, hne3, hrid3⟩ := add_polygon_spec
    (({ st with relations := st.relations.add_new.1 } : MBR).relAddTag
      (st.relations.lowest_id - 1) "type" "multipolygon") p
    (st.relations.lowest_id - 1) hidx
  obtain ⟨ms, hget, hms⟩ := hrid3 _ hget2
  refine ⟨rfl, hidx3, ?_, ms, by simpa using hget, hms⟩
  intro k hk
  show assocGet ((({ st with relations := st.relations.add_new.1 }
      : MBR).relAddTag (st.relations.lowest_id - 1)
        "type" "multipolygon").add_polygon_to_relation p
      (st.relations.lowest_id - 1)).relations.relations k = _
  rw [hne3 k hk, relAddTag_get_ne _ _ _ _ k hk, hne1 k hk]

theorem convert_multipolygon_spec (st : MBR) (ps : List Polygon)
    (hidx : st.nodes.IndexWF) :
    (st.convert_multipolygon ps).2 = st.relations.lowest_id - 1 ∧
    (st.convert_multipolygon ps).1.nodes.IndexWF ∧
    (∀ k, k ≠ st.relations.lowest_id - 1 →
      assocGet (st.convert_multipolygon ps).1.relations.relations k
        = assocGet st.relations.relations k) ∧
    ∃ ms, assocGet (st.convert_multipolygon ps).1.relations.relations
        (st.relations.lowest_id - 1)
        = some ⟨st.relations.lowest_id - 1, [("type", "multipolygon")], ms⟩ ∧
      ∀ me ∈ ms, ∃ i, me.1 = ERef.way i := by
  have hget1 : assocGet ({ st with relations := st.relations.add_new.1 }
      : MBR).relations.relations (st.relations.lowest_id - 1)
      = some ⟨st.relations.lowest_id - 1, [], []⟩ := by
    show assocGet (assocSet st.relations.relations (st.relations.lowest_id - 1)
      ⟨st.relations.lowest_id - 1, [], []⟩) (st.relations.lowest_id - 1) = _
    exact assocGet_assocSet_self _ _ _
  have hne1 : ∀ k, k ≠ st.relations.lowest_id - 1 →
      assocGet ({ st with relations := st.relations.add_new.1 }
        : MBR).relations.relations k = assocGet st.relations.relations k := by
    intro k hk
    show assocGet (assocSet st.relations.relations (st.relations.lowest_id - 1)
      ⟨st.relations.lowest_id - 1, [], []⟩) k = _
    exact assocGet_assocSet_ne _ _ _ _ hk
  have hget2 : assocGet (({ st with relations := st.relations.add_new.1 }
      : MBR).relAddTag (st.relations.lowest_id - 1)
        "type" "multipolygon").relations.relations (st.relations.lowest_id - 1)
      = some ⟨st.relations.lowest_id - 1, [("type", "multipolygon")], []⟩ := by
    rw [relAddTag_get_self, hget1]
    rfl
  obtain ⟨hidx3, hne3, hrid3⟩ := addPolyFold_spec (st.relations.lowest_id - 1) ps
    (({ st with relations := st.relations.add_new.1 } : MBR).relAddTag
      (st.relations.lowest_id - 1) "type" "multipolygon") hidx
  obtain ⟨ms, hget, hms⟩ := hrid3 _ hget2
  refine ⟨rfl, hidx3, ?_, ms, by simpa using hget, hms⟩
  intro k hk
  show assocGet (ps.foldl
      (fun s2 p => s2.add_polygon_to_relation p (st.relations.lowest_id - 1))
      (({ st with relations := st.relations.add_new.1 } : MBR).relAddTag
        (st.relations.lowest_id - 1) "type" "multipolygon")).relations.relations
      k = _
  rw [hne3 k hk, relAddTag_get_ne _ _ _ _ k hk, hne1 k hk]

/-! ### State effects of the part loop -/

theorem setElemTags_rel_get_other (st : MBR) (e : ERef) (t : Tags) (k : Int)
    (h : e ≠ ERef.rel k) :
    assocGet (st.setElemTags e t).relations.relations k
      = assocGet st.relations.relations k := by
  cases e with
  | node i => rfl
  | way i => rfl
  | rel i =>
    have hik : k ≠ i := fun he => h (by rw [he])
    show assocGet (assocModify st.relations.relations i
      (fun r => { r with tags := t })) k = _
    exact assocGet_assocModify_ne _ _ _ _ hik

theorem setElemTags_rel_members (st : MBR) (e : ERef) (t : Tags) (k : Int) :
    (assocGet (st.setElemTags e t).relations.relations k).map Relation.members
      = (assocGet st.relations.relations k).map Relation.members := by
  cases e with
  | node i => rfl
  | way i => rfl
  | rel i =>
    by_cases hik : k = i
    · subst hik
      show (assocGet (assocModify st.relations.relations k
        (fun r => { r with tags := t })) k).map _ = _
      rw [assocGet_assocModify_self]
      cases assocGet st.relations.relations k <;> rfl
    · show (assocGet (assocModify st.relations.relations i
        (fun r => { r with tags := t })) k).map _ = _
      rw [assocGet_assocModify_ne _ _ _ _ hik]

theorem setElemTags_ways_nodes (st : MBR) (e : ERef) (t : Tags) (wid : Int) :
    (assocGet (st.setElemTags e t).ways.ways wid).map Way.nodes
      = (assocGet st.ways.ways wid).map Way.nodes := by
  cases e with
  | node i => rfl
  | rel i => rfl
  | way i =>
    by_cases hik : wid = i
    · subst hik
      show (assocGet (assocModify st.ways.ways wid
        (fun w => { w with tags := t })) wid).map _ = _
      rw [assocGet_assocModify_self]
      cases assocGet st.ways.ways wid <;> rfl
    · show (assocGet (assocModify st.ways.ways i
        (fun w => { w with tags := t })) wid).map _ = _
      rw [assocGet_assocModify_ne _ _ _ _ hik]

theorem setElemTags_rel_pair (st : MBR) (e : ERef) (t : Tags) (k : Int)
    (ht : e = ERef.rel k →
      t.get "type" = (st.getElemTags (ERef.rel k)).get "type") :
    (assocGet (st.setElemTags e t).relations.relations k).map
        (fun r => (r.tags.get "type", r.members))
      = (assocGet st.relations.relations k).map
        (fun r => (r.tags.get "type", r.members)) := by
  cases e with
  | node i => rfl
  | way i => rfl
  | rel i =>
    by_cases hik : i = k
    · subst hik
      show (assocGet (assocModify st.relations.relations i
        (fun r => { r with tags := t })) i).map _ = _
      rw [assocGet_assocModify_self]
      cases hg : assocGet st.relations.relations i with
      | none => rfl
      | some r =>
        have hty : t.get "type" = r.tags.get "type" := by
          rw [ht rfl]
          show (match assocGet st.relations.relations i with
            | some r => r.tags
            | none => []).get "type" = r.tags.get "type"
          rw [hg]
        show some (t.get "type", r.members) = some (r.tags.get "type", r.members)
        rw [hty]
    · show (assocGet (assocModify st.relations.relations i
        (fun r => { r with tags := t })) k).map _ = _
      rw [assocGet_assocModify_ne _ _ _ _ (fun he => hik he.symm)]

theorem getElemTags_rel_of_pair {st1 st2 : MBR} {k : Int}
    (h : (assocGet st2.relations.relations k).map
          (fun r => (r.tags.get "type", r.members))
       = (assocGet st1.relations.relations k).map
          (fun r => (r.tags.get "type", r.members))) :
    (st2.getElemTags (ERef.rel k)).get "type"
      = (st1.getElemTags (ERef.rel k)).get "type" := by
  show (match assocGet st2.relations.relations k with
    | some r => r.tags
    | none => []).get "type"
    = (match assocGet st1.relations.relations k with
    | some r => r.tags
    | none => []).get "type"
  cases hg1 : assocGet st1.relations.relations k with
  | none =>
    rw [hg1] at h
    cases hg2 : assocGet st2.relations.relations k with
    | none => rfl
    | some r2 =>
      rw [hg2] at h
      simp at h
  | some r1 =>
    rw [hg1] at h
    cases hg2 : assocGet st2.relations.relations k with
    | none =>
      rw [hg2] at h
      simp at h
    | some r2 =>
      rw [hg2] at h
      simp only [Option.map_some', Option.some.injEq] at h
      have := congrArg Prod.fst h
      simpa using this

theorem type_mem_part_level : "type" ∈ part_level_tags := by decide

theorem redistributeStep_pair (st : MBR) (element : ERef) (brel : Int)
    (part : ERef) (k : Int) (hk : k ≠ brel) :
    (assocGet (st.redistributeStep element brel part).relations.relations k).map
        (fun r => (r.tags.get "type", r.members))
      = (assocGet st.relations.relations k).map
        (fun r => (r.tags.get "type", r.members)) := by
  have h1 := setElemTags_rel_pair st element
    (redistributeTags (st.getElemTags element) (st.getElemTags part)).1 k
    (fun he => by
      rw [redistributeTags_fst_part type_mem_part_level, he])
  have h2 := setElemTags_rel_pair
    (st.setElemTags element
      (redistributeTags (st.getElemTags element) (st.getElemTags part)).1) part
    (redistributeTags (st.getElemTags element) (st.getElemTags part)).2 k
    (fun he => by
      rw [he] at h1
      rw [redistributeTags_snd_part type_mem_part_level, he]
      exact (getElemTags_rel_of_pair h1).symm)
  show (assocGet (((st.setElemTags element _).setElemTags part _).relAddMember
      brel part "part").relations.relations k).map _ = _
  rw [relAddMember_get_ne _ _ _ _ k hk]
  rw [h2, h1]

theorem redistribFold_pair (element : ERef) (brel : Int) :
    ∀ (parts : List ERef) (st : MBR) (k : Int), k ≠ brel →
    (assocGet ((parts.foldl (fun s part => s.redistributeStep element brel part)
        st)).relations.relations k).map (fun r => (r.tags.get "type", r.members))
      = (assocGet st.relations.relations k).map
          (fun r => (r.tags.get "type", r.members)) := by
  intro parts
  induction parts with
  | nil => intro st k _; rfl
  | cons part parts ih =>
    intro st k hk
    simp only [List.foldl_cons]
    rw [ih _ k hk, redistributeStep_pair st element brel part k hk]

theorem redistributeStep_members (st : MBR) (element : ERef) (brel : Int)
    (part : ERef) {ms : List (ERef × String)}
    (h : (assocGet st.relations.relations brel).map Relation.members = some ms) :
    (assocGet (st.redistributeStep element brel part).relations.relations
        brel).map Relation.members = some (ms ++ [(part, "part")]) := by
  have h2 : (assocGet ((st.setElemTags element
      (redistributeTags (st.getElemTags element) (st.getElemTags part)).1).setElemTags
      part (redistributeTags (st.getElemTags element)
        (st.getElemTags part)).2).relations.relations brel).map Relation.members
      = some ms := by
    rw [setElemTags_rel_members, setElemTags_rel_members, h]
  show (assocGet (((st.setElemTags element _).setElemTags part _).relAddMember
      brel part "part").relations.relations brel).map _ = _
  rw [relAddMember_get_self]
  cases hg : assocGet ((st.setElemTags element _).setElemTags part
      _).relations.relations brel with
  | none => rw [hg] at h2; simp at h2
  | some r =>
    rw [hg] at h2
    simp only [Option.map_some', Option.some.injEq] at h2
    simp only [Option.map_some']
    rw [show r.members = ms from h2]

theorem redistribFold_members (element : ERef) (brel : Int) :
    ∀ (parts : List ERef) (st : MBR) (ms : List (ERef × String)),
    (assocGet st.relations.relations brel).map Relation.members = some ms →
    (assocGet ((parts.foldl (fun s part => s.redistributeStep element brel part)
        st)).relations.relations brel).map Relation.members
      = some (ms ++ parts.map (fun m => (m, "part"))) := by
  intro parts
  induction parts with
  | nil =>
    intro st ms h
    simpa using h
  | cons part parts ih =>
    intro st ms h
    simp only [List.foldl_cons]
    rw [ih _ (ms ++ [(part, "part")]) (redistributeStep_members st element brel part h)]
    simp

theorem redistribFold_way_nodes (element : ERef) (brel : Int) :
    ∀ (parts : List ERef) (st : MBR) (wid : Int),
    (assocGet ((parts.foldl (fun s part => s.redistributeStep element brel part)
        st)).ways.ways wid).map Way.nodes
      = (assocGet st.ways.ways wid).map Way.nodes := by
  intro parts
  induction parts with
  | nil => intro st wid; rfl
  | cons part parts ih =>
    intro st wid
    simp only [List.foldl_cons]
    rw [ih _ wid]
    show (assocGet (((st.setElemTags element _).setElemTags part _).relAddMember
      brel part "part").ways.ways wid).map _ = _
    have hAdd : (((st.setElemTags element
        (redistributeTags (st.getElemTags element) (st.getElemTags part)).1).setElemTags
        part (redistributeTags (st.getElemTags element)
          (st.getElemTags part)).2).relAddMember brel part "part").ways
        = ((st.setElemTags element _).setElemTags part _).ways := rfl
    rw [hAdd, setElemTags_ways_nodes, setElemTags_ways_nodes]

theorem redistribFold_full (element : ERef) (brel : Int)
    (helem : element ≠ ERef.rel brel) :
    ∀ (parts : List ERef) (st : MBR) (r : Relation),
    (∀ pt ∈ parts, pt ≠ ERef.rel brel) →
    assocGet st.relations.relations brel = some r →
    assocGet ((parts.foldl (fun s part => s.redistributeStep element brel part)
        st)).relations.relations brel
      = some ⟨r.osm_id, r.tags, r.members ++ parts.map (fun m => (m, "part"))⟩ := by
  intro parts
  induction parts with
  | nil =>
    intro st r _ h
    simpa using h
  | cons part parts ih =>
    intro st r hparts h
    simp only [List.foldl_cons]
    have hstep : assocGet (st.redistributeStep element brel
        part).relations.relations brel
        = some ⟨r.osm_id, r.tags, r.members ++ [(part, "part")]⟩ := by
      show assocGet (((st.setElemTags element _).setElemTags part _).relAddMember
        brel part "part").relations.relations brel = _
      rw [relAddMember_get_self,
        setElemTags_rel_get_other _ part _ brel
          (hparts part (List.mem_cons_self part parts)),
        setElemTags_rel_get_other _ element _ brel helem, h]
      rfl
    rw [ih _ _ (fun pt hpt => hparts pt (List.mem_cons_of_mem part hpt)) hstep]
    simp

/-! ### Bucket processing -/

theorem encodeOutline_get_brel (st : MBR) (outline : UnionResult) (brel : Int)
    (hidx : st.nodes.IndexWF) (hne : brel ≠ st.relations.lowest_id - 1) :
    assocGet (st.encodeOutline outline).1.relations.relations brel
      = assocGet st.relations.relations brel ∧
    (st.encodeOutline outline).1.nodes.IndexWF ∧
    (st.encodeOutline outline).2 ≠ ERef.rel brel := by
  cases outline with
  | poly p =>
    by_cases hint : p.interiors = []
    · have henc : st.encodeOutline (UnionResult.poly p)
          = ((st.points_to_way p.exterior).1,
             ERef.way (st.points_to_way p.exterior).2) := by
        simp only [MBR.encodeOutline, MBR.simple_polygon_to_way]
        rw [if_pos hint]
      rw [henc]
      obtain ⟨_, hrel, hidx', _⟩ := points_to_way_spec st p.exterior hidx
      refine ⟨by rw [hrel], hidx', ?_⟩
      intro h
      exact ERef.noConfusion h
    · have henc : st.encodeOutline (UnionResult.poly p)
          = ((st.polygon_with_interior_to_relation p).1,
             ERef.rel (st.polygon_with_interior_to_relation p).2) := by
        simp only [MBR.encodeOutline]
        rw [if_neg hint]
      rw [henc]
      obtain ⟨hrid, hidx', hne', _⟩ := polygon_with_interior_spec st p hidx
      refine ⟨hne' brel hne, hidx', ?_⟩
      rw [hrid]
      intro h
      exact hne (ERef.rel.inj h).symm
  | multi ps =>
    have henc : st.encodeOutline (UnionResult.multi ps)
        = ((st.convert_multipolygon ps).1,
           ERef.rel (st.convert_multipolygon ps).2) := rfl
    rw [henc]
    obtain ⟨hrid, hidx', hne', _⟩ := convert_multipolygon_spec st ps hidx
    refine ⟨hne' brel hne, hidx', ?_⟩
    rw [hrid]
    intro h
    exact hne (ERef.rel.inj h).symm

theorem processBucketCore_brel_members (st : MBR) (brel : Int)
    (outline : UnionResult) (members : List ERef) (ms0 : List (ERef × String))
    (hidx : st.nodes.IndexWF)
    (hbrel : (assocGet st.relations.relations brel).map Relation.members
      = some ms0)
    (hne : brel ≠ st.relations.lowest_id - 1) :
    (assocGet (st.processBucketCore brel outline
        members).1.relations.relations brel).map Relation.members
      = some ((ms0 ++ [((st.processBucketCore brel outline members).2,
          "outline")]) ++ members.map (fun m => (m, "part"))) := by
  obtain ⟨hpres, hidx', helem⟩ := encodeOutline_get_brel st outline brel hidx hne
  show (assocGet ((members.foldl (fun s part => s.redistributeStep
      (st.encodeOutline outline).2 brel part)
      ((st.encodeOutline outline).1.relAddMember brel
        (st.encodeOutline outline).2 "outline"))).relations.relations brel).map
      Relation.members = _
  apply redistribFold_members
  rw [relAddMember_get_self, hpres]
  cases hg : assocGet st.relations.relations brel with
  | none =>
    rw [hg] at hbrel
    simp at hbrel
  | some r0 =>
    rw [hg] at hbrel
    simp only [Option.map_some', Option.some.injEq] at hbrel
    simp only [Option.map_some']
    rw [show r0.members = ms0 from hbrel]
    rfl

theorem processBucketCore_brel_full (st : MBR) (brel : Int)
    (outline : UnionResult) (members : List ERef) (r0 : Relation)
    (hidx : st.nodes.IndexWF)
    (hget : assocGet st.relations.relations brel = some r0)
    (hne : brel ≠ st.relations.lowest_id - 1)
    (hparts : ∀ pt ∈ members, pt ≠ ERef.rel brel) :
    assocGet (st.processBucketCore brel outline
        members).1.relations.relations brel
      = some ⟨r0.osm_id, r0.tags,
          (r0.members ++ [((st.processBucketCore brel outline members).2,
            "outline")]) ++ members.map (fun m => (m, "part"))⟩ := by
  obtain ⟨hpres, hidx', helem⟩ := encodeOutline_get_brel st outline brel hidx hne
  show assocGet ((members.foldl (fun s part => s.redistributeStep
      (st.encodeOutline outline).2 brel part)
      ((st.encodeOutline outline).1.relAddMember brel
        (st.encodeOutline outline).2 "outline"))).relations.relations brel = _
  have hstep : assocGet ((st.encodeOutline outline).1.relAddMember brel
      (st.encodeOutline outline).2 "outline").relations.relations brel
      = some ⟨r0.osm_id, r0.tags, r0.members
          ++ [((st.encodeOutline outline).2, "outline")]⟩ := by
    rw [relAddMember_get_self, hpres, hget]
    rfl
  have hf := redistribFold_full (st.encodeOutline outline).2 brel helem members
    _ _ hparts hstep
  simpa using hf

/-- C1: topology classification for a bucket of two or more members.  Given
the computed union result, exactly one of three encodings is produced,
matching the union's structure: a single polygon with no holes becomes a
plain way (a fresh way whose node coordinates trace the polygon's exterior
ring); a single polygon with holes becomes a relation tagged
`type=multipolygon`; multiple disjoint polygons become a single flattened
`type=multipolygon` relation all of whose members are ways.  The chosen
element is recorded on the new building relation with role "outline" (its
member list is exactly the outline followed by the parts). -/
theorem mbr_union_topology_classification
    (st : MBR) (brel : Int) (outline : UnionResult) (members : List ERef)
    (hlen : 1 < members.length)
    (hidx : st.nodes.IndexWF)
    (hbrel : (assocGet st.relations.relations brel).map Relation.members
      = some [])
    (hne : brel ≠ st.relations.lowest_id - 1) :
    ((assocGet (st.processBucketCore brel outline
          members).1.relations.relations brel).map Relation.members
      = some (((st.processBucketCore brel outline members).2, "outline")
          :: members.map (fun m => (m, "part")))) ∧
    (∀ p, outline = UnionResult.poly p → p.interiors = [] →
      (st.processBucketCore brel outline members).2
          = ERef.way (st.ways.lowest_id - 1) ∧
      ∃ ns, (assocGet (st.processBucketCore brel outline
            members).1.ways.ways (st.ways.lowest_id - 1)).map Way.nodes
          = some ns ∧
        ns.map (fun n => (n.lon, n.lat)) = p.exterior) ∧
    (∀ p, outline = UnionResult.poly p → p.interiors ≠ [] →
      (st.processBucketCore brel outline members).2
          = ERef.rel (st.relations.lowest_id - 1) ∧
      ∃ ms, (assocGet (st.processBucketCore brel outline
            members).1.relations.relations
            (st.relations.lowest_id - 1)).map
            (fun r => (r.tags.get "type", r.members))
          = some (some "multipolygon", ms) ∧
        ∀ me ∈ ms, ∃ i, me.1 = ERef.way i) ∧
    (∀ ps, outline = UnionResult.multi ps →
      (st.processBucketCore brel outline members).2
          = ERef.rel (st.relations.lowest_id - 1) ∧
      ∃ ms, (assocGet (st.processBucketCore brel outline
            members).1.relations.relations
            (st.relations.lowest_id - 1)).map
            (fun r => (r.tags.get "type", r.members))
          = some (some "multipolygon", ms) ∧
        ∀ me ∈ ms, ∃ i, me.1 = ERef.way i) := by
  refine ⟨?_, ?_, ?_, ?_⟩
  · have h := processBucketCore_brel_members st brel outline members [] hidx
      hbrel hne
    simpa using h
  · intro p hp hint
    subst hp
    have henc : st.encodeOutline (UnionResult.poly p)
        = ((st.points_to_way p.exterior).1,
           ERef.way (st.points_to_way p.exterior).2) := by
      simp only [MBR.encodeOutline, MBR.simple_polygon_to_way]
      rw [if_pos hint]
    obtain ⟨hwid, hrelp, hidxp, ns, hget, hmap⟩ :=
      points_to_way_spec st p.exterior hidx
    constructor
    · show (st.encodeOutline (UnionResult.poly p)).2 = _
      rw [henc, hwid]
    · refine ⟨ns, ?_, hmap⟩
      show (assocGet ((members.foldl (fun s part => s.redistributeStep
          (st.encodeOutline (UnionResult.poly p)).2 brel part)
          ((st.encodeOutline (UnionResult.poly p)).1.relAddMember brel
            (st.encodeOutline (UnionResult.poly p)).2 "outline"))).ways.ways
          (st.ways.lowest_id - 1)).map Way.nodes = some ns
      rw [redistribFold_way_nodes]
      show (assocGet (st.encodeOutline (UnionResult.poly p)).1.ways.ways
        (st.ways.lowest_id - 1)).map Way.nodes = some ns
      rw [henc, hget]
      rfl
  · intro p hp hint
    subst hp
    have henc : st.encodeOutline (UnionResult.poly p)
        = ((st.polygon_with_interior_to_relation p).1,
           ERef.rel (st.polygon_with_interior_to_relation p).2) := by
      simp only [MBR.encodeOutline]
      rw [if_neg hint]
    obtain ⟨hrid, hidxp, hnep, ms, hget, hms⟩ :=
      polygon_with_interior_spec st p hidx
    constructor
    · show (st.encodeOutline (UnionResult.poly p)).2 = _
      rw [henc, hrid]
    · refine ⟨ms, ?_, hms⟩
      show (assocGet ((members.foldl (fun s part => s.redistributeStep
          (st.encodeOutline (UnionResult.poly p)).2 brel part)
          ((st.encodeOutline (UnionResult.poly p)).1.relAddMember brel
            (st.encodeOutline (UnionResult.poly p)).2
            "outline"))).relations.relations
          (st.relations.lowest_id - 1)).map
          (fun r => (r.tags.get "type", r.members))
        = some (some "multipolygon", ms)
      rw [redistribFold_pair _ _ members _ _ (Ne.symm hne)]
      rw [relAddMember_get_ne _ _ _ _ _ (Ne.symm hne)]
      rw [henc]
      show (assocGet (st.polygon_with_interior_to_relation
        p).1.relations.relations (st.relations.lowest_id - 1)).map
        (fun r => (r.tags.get "type", r.members)) = _
      rw [hget]
      rfl
  · intro ps hp
    subst hp
    have henc : st.encodeOutline (UnionResult.multi ps)
        = ((st.convert_multipolygon ps).1,
           ERef.rel (st.convert_multipolygon ps).2) := rfl
    obtain ⟨hrid, hidxp, hnep, ms, hget, hms⟩ :=
      convert_multipolygon_spec st ps hidx
    constructor
    · show (st.encodeOutline (UnionResult.multi ps)).2 = _
      rw [henc, hrid]
    · refine ⟨ms, ?_, hms⟩
      show (assocGet ((members.foldl (fun s part => s.redistributeStep
          (st.encodeOutline (UnionResult.multi ps)).2 brel part)
          ((st.encodeOutline (UnionResult.multi ps)).1.relAddMember brel
            (st.encodeOutline (UnionResult.multi ps)).2
            "outline"))).relations.relations
          (st.relations.lowest_id - 1)).map
          (fun r => (r.tags.get "type", r.members))
        = some (some "multipolygon", ms)
      rw [redistribFold_pair _ _ members _ _ (Ne.symm hne)]
      rw [relAddMember_get_ne _ _ _ _ _ (Ne.symm hne)]
      rw [henc]
      show (assocGet (st.convert_multipolygon
        ps).1.relations.relations (st.relations.lowest_id - 1)).map
        (fun r => (r.tags.get "type", r.members)) = _
      rw [hget]
      rfl

/-- Witness for C1: a two-member bucket whose union is a single holeless
unit square, encoded as a plain way attached with role "outline". -/
theorem mbr_union_topology_classification_witness :
    ((assocGet (MBR.processBucketCore ⟨[], Nodes.empty, Ways.empty,
          ⟨[(-2, ⟨-2, [("type", "building")], []⟩)], -2⟩⟩ (-2)
          (UnionResult.poly ⟨[((0 : ℚ), (0 : ℚ)), (1, 0), (1, 1), (0, 1), (0, 0)], []⟩)
          [ERef.way 1, ERef.way 2]).1.relations.relations (-2)).map
        Relation.members
      = some [((MBR.processBucketCore ⟨[], Nodes.empty, Ways.empty,
          ⟨[(-2, ⟨-2, [("type", "building")], []⟩)], -2⟩⟩ (-2)
          (UnionResult.poly ⟨[((0 : ℚ), (0 : ℚ)), (1, 0), (1, 1), (0, 1), (0, 0)], []⟩)
          [ERef.way 1, ERef.way 2]).2, "outline"),
          (ERef.way 1, "part"), (ERef.way 2, "part")]) ∧
    (MBR.processBucketCore ⟨[], Nodes.empty, Ways.empty,
          ⟨[(-2, ⟨-2, [("type", "building")], []⟩)], -2⟩⟩ (-2)
          (UnionResult.poly ⟨[((0 : ℚ), (0 : ℚ)), (1, 0), (1, 1), (0, 1), (0, 0)], []⟩)
          [ERef.way 1, ERef.way 2]).2 = ERef.way (-2) := by
  have h := mbr_union_topology_classification ⟨[], Nodes.empty, Ways.empty,
      ⟨[(-2, ⟨-2, [("type", "building")], []⟩)], -2⟩⟩ (-2)
      (UnionResult.poly ⟨[((0 : ℚ), (0 : ℚ)), (1, 0), (1, 1), (0, 1), (0, 0)], []⟩)
      [ERef.way 1, ERef.way 2] (by decide)
      (by intro p hp; simp [Nodes.empty] at hp) (by decide) (by decide)
  refine ⟨h.1, ?_⟩
  rw [(h.2.1 ⟨[((0 : ℚ), (0 : ℚ)), (1, 0), (1, 1), (0, 1), (0, 0)], []⟩ rfl rfl).1]
  decide

theorem processBucket_brel_spec (union : List Polygon → UnionResult)
    (assembleRings : List (List (ℚ × ℚ)) → List Polygon)
    (st : MBR) (members : List ERef)
    (hWF : st.relations.WF)
    (hidx : st.nodes.IndexWF)
    (hres : ∀ m ∈ members, ∀ i, m = ERef.rel i →
      ∃ r, assocGet st.relations.relations i = some r) :
    assocGet (st.processBucket union assembleRings
        members).1.relations.relations
      (st.processBucket union assembleRings members).2.1
      = some ⟨st.relations.lowest_id - 1, [("type", "building")],
          ([] ++ [((st.processBucket union assembleRings members).2.2,
            "outline")]) ++ members.map (fun m => (m, "part"))⟩ := by
  have h' : st.relations.lowest_id = st.relations.minId := hWF
  have hget2 : assocGet (({ st with relations := st.relations.add_new.1 }
      : MBR).relAddTag (st.relations.lowest_id - 1)
        "type" "building").relations.relations (st.relations.lowest_id - 1)
      = some ⟨st.relations.lowest_id - 1, [("type", "building")], []⟩ := by
    rw [relAddTag_get_self]
    show (assocGet (assocSet st.relations.relations
      (st.relations.lowest_id - 1) ⟨st.relations.lowest_id - 1, [], []⟩)
      (st.relations.lowest_id - 1)).map _ = _
    rw [assocGet_assocSet_self]
    rfl
  have hne2 : (st.relations.lowest_id - 1 : Int)
      ≠ (({ st with relations := st.relations.add_new.1 }
        : MBR).relAddTag (st.relations.lowest_id - 1)
          "type" "building").relations.lowest_id - 1 := by
    show (st.relations.lowest_id - 1 : Int)
      ≠ (if st.relations.lowest_id - 1 < st.relations.lowest_id - 1 then
          st.relations.lowest_id - 1 else st.relations.lowest_id - 1) - 1
    rw [if_neg (lt_irrefl _)]
    omega
  have hparts : ∀ pt ∈ members, pt ≠ ERef.rel (st.relations.lowest_id - 1) := by
    intro pt hpt he
    obtain ⟨r, hr⟩ := hres pt hpt (st.relations.lowest_id - 1) he
    have hmem : (st.relations.lowest_id - 1)
        ∈ st.relations.relations.map Prod.fst :=
      List.mem_map_of_mem Prod.fst (assocGet_mem hr)
    have hle := keyMin_le_mem hmem
    unfold Relations.minId at h'
    omega
  have hfull := processBucketCore_brel_full
    (({ st with relations := st.relations.add_new.1 } : MBR).relAddTag
      (st.relations.lowest_id - 1) "type" "building")
    (st.relations.lowest_id - 1)
    (union ((({ st with relations := st.relations.add_new.1 } : MBR).relAddTag
      (st.relations.lowest_id - 1) "type" "building").collectPolygons
        assembleRings members))
    members ⟨st.relations.lowest_id - 1, [("type", "building")], []⟩
    hidx hget2 hne2 hparts
  exact hfull

/-- C7 counterexample: with the join-tag key configured as "type", process a
concrete two-way bucket.  The synthesized building relation carries the tag
type=building — i.e. a join-tag value — and feeding it back through the
ingestion bucketing (`endRelation`) does put it into the bucket "building":
it is not true that the synthesized relation never enters a join-tag
bucket. -/
theorem building_relation_join_tag_bucketed :
    ((assocGet (MBR.processBucket
        (fun _ => UnionResult.poly
          ⟨[((0 : ℚ), (0 : ℚ)), (2, 0), (2, 1), (0, 1), (0, 0)], []⟩)
        (fun _ => [])
        ⟨[("B1", [ERef.way 1, ERef.way 2])], Nodes.empty,
         ⟨[(1, ⟨1, [("type", "B1")], []⟩), (2, ⟨2, [("type", "B1")], []⟩)], -1⟩,
         Relations.empty⟩
        [ERef.way 1, ERef.way 2]).1.relations.relations (-2)).map
        (fun r => (r.tags, r.tags.has "type",
          (MBR.endRelation "type" MBR.empty r).bldgs))
      = some ([("type", "building")], true,
          [("building", [ERef.rel (-2)])])) ∧
    ¬([("building", [ERef.rel (-2)])] = (MBR.empty : MBR).bldgs) := by decide

/-- C7 (amended): consolidation is a pure function of its input (the model
is deterministic by construction), and the building relation synthesized
for a bucket carries exactly the tag list [(type, building)]; therefore,
provided the configured join-tag key is not "type", the synthesized
relation carries no join-tag value and the ingestion bucketing step
(`endRelation`) leaves the buckets unchanged on it — it never enters any
join-tag bucket, so re-running consolidation cannot group it into a further
grouping. -/
theorem building_relation_tags_amended
    (union : List Polygon → UnionResult)
    (assembleRings : List (List (ℚ × ℚ)) → List Polygon)
    (st : MBR) (members : List ERef) (bldg_id_tag : String)
    (hWF : st.relations.WF)
    (hidx : st.nodes.IndexWF)
    (hres : ∀ m ∈ members, ∀ i, m = ERef.rel i →
      ∃ r, assocGet st.relations.relations i = some r) :
    ∃ r, assocGet (st.processBucket union assembleRings
          members).1.relations.relations
        (st.processBucket union assembleRings members).2.1 = some r ∧
      r.tags = [("type", "building")] ∧
      (bldg_id_tag ≠ "type" →
        r.tags.has bldg_id_tag = false ∧
        ∀ st2 : MBR, (MBR.endRelation bldg_id_tag st2 r).bldgs = st2.bldgs) := by
  have hmain := processBucket_brel_spec union assembleRings st members hWF
    hidx hres
  have hnone : assocGet [(("type" : String), ("building" : String))]
      bldg_id_tag = none → bldg_id_tag = "type" → False := by
    intro h1 h2
    rw [h2] at h1
    simp [assocGet] at h1
  refine ⟨_, hmain, rfl, ?_⟩
  intro hjoin
  have hget_none : assocGet [(("type" : String), ("building" : String))]
      bldg_id_tag = none := by
    show (if ("type" : String) = bldg_id_tag then some "building"
      else assocGet ([] : Tags) bldg_id_tag) = none
    rw [if_neg (fun he => hjoin he.symm)]
    rfl
  constructor
  · show (assocGet [(("type" : String), ("building" : String))]
      bldg_id_tag).isSome = false
    rw [hget_none]
    rfl
  · intro st2'
    show (MBR.endRelation bldg_id_tag st2' _).bldgs = st2'.bldgs
    unfold MBR.endRelation
    dsimp only
    rw [show Tags.get [(("type" : String), ("building" : String))] bldg_id_tag
      = none from hget_none]

/-- Witness for the amended C7 on a concrete two-way bucket with join-tag
key "bldg". -/
theorem building_relation_tags_amended_witness :
    ∃ r, assocGet (MBR.processBucket
        (fun _ => UnionResult.poly
          ⟨[((0 : ℚ), (0 : ℚ)), (2, 0), (2, 1), (0, 1), (0, 0)], []⟩)
        (fun _ => [])
        ⟨[("B1", [ERef.way 1, ERef.way 2])], Nodes.empty,
         ⟨[(1, ⟨1, [("bldg", "B1")], []⟩), (2, ⟨2, [("bldg", "B1")], []⟩)], -1⟩,
         Relations.empty⟩
        [ERef.way 1, ERef.way 2]).1.relations.relations
        (MBR.processBucket
        (fun _ => UnionResult.poly
          ⟨[((0 : ℚ), (0 : ℚ)), (2, 0), (2, 1), (0, 1), (0, 0)], []⟩)
        (fun _ => [])
        ⟨[("B1", [ERef.way 1, ERef.way 2])], Nodes.empty,
         ⟨[(1, ⟨1, [("bldg", "B1")], []⟩), (2, ⟨2, [("bldg", "B1")], []⟩)], -1⟩,
         Relations.empty⟩
        [ERef.way 1, ERef.way 2]).2.1 = some r ∧
      r.tags = [("type", "building")] ∧
      ("bldg" ≠ "type" →
        r.tags.has "bldg" = false ∧
        ∀ st2 : MBR, (MBR.endRelation "bldg" st2 r).bldgs = st2.bldgs) :=
  building_relation_tags_amended
    (fun _ => UnionResult.poly
      ⟨[((0 : ℚ), (0 : ℚ)), (2, 0), (2, 1), (0, 1), (0, 0)], []⟩)
    (fun _ => [])
    ⟨[("B1", [ERef.way 1, ERef.way 2])], Nodes.empty,
     ⟨[(1, ⟨1, [("bldg", "B1")], []⟩), (2, ⟨2, [("bldg", "B1")], []⟩)], -1⟩,
     Relations.empty⟩
    [ERef.way 1, ERef.way 2] "bldg"
    (by unfold Relations.WF Relations.minId; decide)
    (by intro p hp; simp [Nodes.empty] at hp)
    (by
      intro m hm i he
      rcases List.mem_cons.mp hm with rfl | hm2
      · exact ERef.noConfusion he
      · rcases List.mem_cons.mp hm2 with rfl | hm3
        · exact ERef.noConfusion he
        · simp at hm3)
